import Mathlib

/-!
# Worker-pool pipeline of `Assignment6/Go/main.go`

A shallow embedding of the Go program: `processTask`, the `worker` goroutine, and the
orchestration in `main` (worker spawning, sink creation, collector, producer, the two
wait groups and the two unbuffered channels).

Modelling conventions.

* Go `int` values are `Int`/`Nat` without wrap-around. The only arithmetic on them is
  `i++` on the two loop counters, which stay below `numWorkers + 2` and `numTasks + 2`
  (`counters_bounded`).
* Go strings are Lean strings (sequences of Unicode scalar values).
* `fmt.Sprintf("%d", n)` is `Int.repr`: decimal digits with a leading `-` for negatives.
* `time.Sleep` and log timestamps are not modelled.
* Goroutines are program counters; a scheduler picks an `Action`, and `step` performs it
  when it is enabled. An unbuffered channel hands a value over in one joint step of sender
  and receiver. A Go run-time panic (send on a closed channel, close of a closed channel,
  negative wait-group counter) sets `panicked`.
* The sink (`go_results.txt`) and the Unicode upper-case table are the environment: they are
  fields of `Config`. A write on the sink either succeeds and appends the line with its
  newline, or fails after it has appended some first characters of the line
  (`fmt.Fprintln` returns the byte count, which `main` discards); how many is decided by
  the environment (`partialWrite`). Lines are cut at characters, which for the ASCII lines
  of the workers are bytes.
* `numWorkers` and `numTasks`, constants 4 and 20 in `main`, are parameters.
-/

namespace Pipeline

/-! ## Data model -/

/-- Task represents a unit of work (`type Task struct`). -/
structure Task where
  ID : Int
  Payload : String
deriving DecidableEq, Repr

/-- The verb `%d` of `fmt.Sprintf` / `fmt.Errorf` / `log.Printf` on an `int`. -/
def fmtInt (n : Int) : String := n.repr

/-- The library function `strings.ToUpper`. A string with ASCII characters only takes the
fast path that shifts `a`..`z` to `A`..`Z`; any other string is mapped character by
character through `unicode.ToUpper`, whose table is the argument `unicodeUpper`. -/
def ToUpper (unicodeUpper : Char → Char) (s : String) : String :=
  if s.data.all (fun c => decide (c.toNat < 128)) then String.mk (s.data.map Char.toUpper)
  else String.mk (s.data.map unicodeUpper)

/-- The function `processTask`: the returned pair is Go's `(string, error)`; the error is `none`
for `nil` and `some msg` for the error built by `fmt.Errorf`. The remainder `%` of Go
truncates towards zero (`Int.tmod`). -/
def processTask (unicodeUpper : Char → Char) (task : Task) : String × Option String :=
  if task.ID.tmod 7 = 0 then
    ("", some ("simulated processing error for task " ++ fmtInt task.ID))
  else
    ("Task " ++ fmtInt task.ID ++ " processed => " ++ ToUpper unicodeUpper task.Payload, none)

/-- The string a worker sends on `results`: `fmt.Sprintf("Worker %d: %s", id, result)`. -/
def resultLine (id : Int) (result : String) : String :=
  "Worker " ++ fmtInt id ++ ": " ++ result

/-- The task the producer builds in iteration `i`:
`Task{ID: i, Payload: fmt.Sprintf("payload-%d", i)}`. -/
def mkTask (i : Nat) : Task :=
  { ID := (i : Int), Payload := "payload-" ++ fmtInt (i : Int) }

/-! ## Goroutines -/

/-- Program points of a `worker` goroutine. -/
inductive WorkerPC
  /-- spawned, before `log.Printf("Worker %d started.")` -/
  | started
  /-- blocked at `for task := range tasks` -/
  | recv
  /-- received `t`, before the log line, `processTask` and the error test -/
  | picked (t : Task)
  /-- blocked at `results <- line` -/
  | sending (t : Task) (line : String)
  /-- the send went through, before `log.Printf("Worker %d finished task %d")` -/
  | sent (t : Task)
  /-- returned; the deferred `wg.Done()` has run -/
  | exited
deriving DecidableEq, Repr

/-- A spawned worker goroutine: its argument `id` and its program point. -/
structure Worker where
  id : Int
  pc : WorkerPC
deriving DecidableEq, Repr

/-- Program points of the producer goroutine (`go func() { for i := 1; ... }`). -/
inductive ProducerPC
  | unspawned
  /-- loop variable is `i`: blocked at `tasks <- Task{...}` when `i <= numTasks`,
  about to log and `close(tasks)` otherwise -/
  | loop (i : Nat)
  | finished
deriving DecidableEq, Repr

/-- Program points of the collector goroutine. -/
inductive CollectorPC
  | unspawned
  /-- blocked at `for line := range results` -/
  | recv
  /-- about to run `fmt.Fprintln(file, line)` -/
  | writing (line : String)
  /-- returned; the deferred `collectorWG.Done()` has run -/
  | finished
deriving DecidableEq, Repr

/-- Program points of `main` (the orchestrator). -/
inductive MainPC
  | start
  /-- worker loop with loop variable `i` -/
  | spawning (i : Nat)
  /-- about to call `os.Create` -/
  | create
  | goCollector
  | goProducer
  /-- blocked at `wg.Wait()` -/
  | waitWorkers
  /-- about to run `close(results)` -/
  | closeResults
  /-- blocked at `collectorWG.Wait()` -/
  | waitCollector
  /-- final log line, return, deferred `file.Close()` -/
  | finish
  /-- `main` returned: the process ended normally -/
  | done
  /-- `log.Fatalf` ended the process -/
  | aborted
deriving DecidableEq, Repr

/-- State of the results file handle. -/
inductive FileState
  | notCreated
  | opened
  | closed
deriving DecidableEq, Repr

/-- An operation that completed on a channel: a value handed over (with the id of the worker
at the worker end of the hand-over), or a close. -/
inductive ChanEv (α : Type)
  | xfer (worker : Int) (v : α)
  | close
deriving DecidableEq, Repr

/-- An unbuffered channel: its closed flag, and the history of completed operations.
No transition reads the history. -/
structure Chan (α : Type) where
  closed : Bool
  trace : List (ChanEv α)
deriving DecidableEq, Repr

/-- The calls of the `log` package in the program, with their arguments. -/
inductive LogMsg
  | mainStarting
  | workerStarted (id : Int)
  | workerPicked (id taskID : Int)
  | workerError (id taskID : Int) (err : String)
  | workerFinished (id taskID : Int)
  | workerExiting (id : Int)
  | createFailed
  | closeError
  | writeError
  | sendingTasks
  | allTasksSent
  | allWorkersFinished
  | complete
deriving DecidableEq, Repr

/-- The constants of `main` and the environment. `writeOK k` tells whether the write number `k`
(counted from 0) on the results file succeeds; when it fails, `partialWrite k` is the number
of characters of the line that have reached the file before the error. -/
structure Config where
  numWorkers : Nat
  numTasks : Nat
  createOK : Bool
  writeOK : Nat → Bool
  partialWrite : Nat → Nat
  closeOK : Bool
  unicodeUpper : Char → Char

/-- The state of the whole process. -/
structure State where
  main : MainPC
  workers : List Worker
  producer : ProducerPC
  collector : CollectorPC
  tasks : Chan Task
  results : Chan String
  wg : Nat
  collectorWG : Nat
  file : FileState
  sink : String
  writes : Nat
  log : List LogMsg
  panicked : Bool

/-- The state in which `main` is entered. -/
def init : State :=
  { main := .start, workers := [], producer := .unspawned, collector := .unspawned,
    tasks := { closed := false, trace := [] }, results := { closed := false, trace := [] },
    wg := 0, collectorWG := 0, file := .notCreated, sink := "", writes := 0, log := [],
    panicked := false }

/-- A run-time panic ends the process. -/
def crash (s : State) : State := { s with panicked := true }

/-- Whether `main` has ended the process. -/
def MainPC.halted : MainPC → Bool
  | .done => true
  | .aborted => true
  | _ => false

/-- Whether the process has ended (normally, by `log.Fatalf`, or by a panic). -/
def State.halted (s : State) : Bool := s.panicked || s.main.halted

/-- The next statement of `main`. -/
def mainStep (cfg : Config) (s : State) : Option State :=
  match s.main with
  | .start => some { s with main := .spawning 1, log := s.log ++ [.mainStarting] }
  | .spawning i =>
    if i ≤ cfg.numWorkers then
      some { s with
        wg := s.wg + 1
        workers := s.workers ++ [{ id := (i : Int), pc := .started }]
        main := .spawning (i + 1) }
    else some { s with main := .create }
  | .create =>
    if cfg.createOK then some { s with file := .opened, sink := "", main := .goCollector }
    else some { s with main := .aborted, log := s.log ++ [.createFailed] }
  | .goCollector =>
    some { s with collectorWG := s.collectorWG + 1, collector := .recv, main := .goProducer }
  | .goProducer =>
    some { s with log := s.log ++ [.sendingTasks], producer := .loop 1, main := .waitWorkers }
  | .waitWorkers => if s.wg = 0 then some { s with main := .closeResults } else none
  | .closeResults =>
    if s.results.closed then
      some (crash { s with log := s.log ++ [.allWorkersFinished] })
    else
      some { s with
        log := s.log ++ [.allWorkersFinished]
        results := { closed := true, trace := s.results.trace ++ [.close] }
        main := .waitCollector }
  | .waitCollector => if s.collectorWG = 0 then some { s with main := .finish } else none
  | .finish =>
    some { s with
      log := s.log ++ [.complete] ++ (if cfg.closeOK then [] else [.closeError])
      file := .closed
      main := .done }
  | .done => none
  | .aborted => none

/-- Replace the program point of the worker at position `k`. -/
def setPC (s : State) (k : Nat) (w : Worker) (pc : WorkerPC) : State :=
  { s with workers := s.workers.set k { w with pc := pc } }

/-- A step of the worker goroutine at position `k` that involves no channel hand-over. -/
def workerStep (cfg : Config) (k : Nat) (s : State) : Option State :=
  match s.workers[k]? with
  | none => none
  | some w =>
    match w.pc with
    | .started => some { setPC s k w .recv with log := s.log ++ [.workerStarted w.id] }
    | .recv =>
      if s.tasks.closed then
        if s.wg = 0 then some (crash { s with log := s.log ++ [.workerExiting w.id] })
        else some { setPC s k w .exited with
          log := s.log ++ [.workerExiting w.id]
          wg := s.wg - 1 }
      else none
    | .picked t =>
      match processTask cfg.unicodeUpper t with
      | (_, some err) =>
        some { setPC s k w .recv with
          log := s.log ++ [.workerPicked w.id t.ID, .workerError w.id t.ID err] }
      | (result, none) =>
        some { setPC s k w (.sending t (resultLine w.id result)) with
          log := s.log ++ [.workerPicked w.id t.ID] }
    | .sending _ _ => if s.results.closed then some (crash s) else none
    | .sent t => some { setPC s k w .recv with log := s.log ++ [.workerFinished w.id t.ID] }
    | .exited => none

/-- A step of the producer goroutine that involves no hand-over: the panic of a send on a
closed channel, or the end of the loop with `close(tasks)`. -/
def producerStep (cfg : Config) (s : State) : Option State :=
  match s.producer with
  | .unspawned => none
  | .finished => none
  | .loop i =>
    if i ≤ cfg.numTasks then
      if s.tasks.closed then some (crash s) else none
    else if s.tasks.closed then some (crash { s with log := s.log ++ [.allTasksSent] })
    else
      some { s with
        log := s.log ++ [.allTasksSent]
        tasks := { closed := true, trace := s.tasks.trace ++ [.close] }
        producer := .finished }

/-- The hand-over of the next task from the producer to the worker at position `k`. -/
def sendTask (cfg : Config) (k : Nat) (s : State) : Option State :=
  match s.producer, s.workers[k]? with
  | .loop i, some w =>
    if i ≤ cfg.numTasks ∧ s.tasks.closed = false ∧ w.pc = .recv then
      some { setPC s k w (.picked (mkTask i)) with
        producer := .loop (i + 1)
        tasks := { s.tasks with trace := s.tasks.trace ++ [.xfer w.id (mkTask i)] } }
    else none
  | _, _ => none

/-- The hand-over of a result line from the worker at position `k` to the collector. -/
def sendResult (k : Nat) (s : State) : Option State :=
  match s.collector, s.workers[k]? with
  | .recv, some w =>
    match w.pc with
    | .sending t line =>
      if s.results.closed = false then
        some { setPC s k w (.sent t) with
          collector := .writing line
          results := { s.results with trace := s.results.trace ++ [.xfer w.id line] } }
      else none
    | _ => none
  | _, _ => none

/-- What a failed `fmt.Fprintln(file, line)` has put into the file: nothing when the file is
not open, otherwise the first `n` characters of the line. The write has stopped before the
end of `line ++ "\n"`, so the newline is not among them. -/
def failedWrite (file : FileState) (n : Nat) (line : String) : String :=
  if file = .opened then String.mk (line.data.take n) else ""

/-- A step of the collector goroutine that involves no hand-over: the write of the line it
holds, or the end of its loop on a closed channel. -/
def collectorStep (cfg : Config) (s : State) : Option State :=
  match s.collector with
  | .unspawned => none
  | .finished => none
  | .recv =>
    if s.results.closed then
      if s.collectorWG = 0 then some (crash s)
      else some { s with collector := .finished, collectorWG := s.collectorWG - 1 }
    else none
  | .writing line =>
    if s.file = .opened ∧ cfg.writeOK s.writes = true then
      some { s with sink := s.sink ++ (line ++ "\n"), writes := s.writes + 1, collector := .recv }
    else
      some { s with
        sink := s.sink ++ failedWrite s.file (cfg.partialWrite s.writes) line
        log := s.log ++ [.writeError]
        writes := s.writes + 1
        collector := .recv }

/-- What the scheduler can pick. -/
inductive Action
  | main
  | worker (k : Nat)
  | producer
  | collector
  | sendTask (k : Nat)
  | sendResult (k : Nat)
deriving DecidableEq, Repr

/-- One step of the process; `none` when the action is not enabled. -/
def step (cfg : Config) (a : Action) (s : State) : Option State :=
  if s.halted then none
  else
    match a with
    | .main => mainStep cfg s
    | .worker k => workerStep cfg k s
    | .producer => producerStep cfg s
    | .collector => collectorStep cfg s
    | .sendTask k => sendTask cfg k s
    | .sendResult k => sendResult k s

/-- An execution: the actions of a schedule performed in order. -/
def run (cfg : Config) : List Action → State → Option State
  | [], s => some s
  | a :: as, s => (step cfg a s).bind (run cfg as)

/-- The states of the executions of `main`. -/
def Reachable (cfg : Config) (s : State) : Prop := ∃ as, run cfg as init = some s

/-! ## Vocabulary of the statements -/

/-- The constants of `main` as written (`numWorkers = 4`, `numTasks = 20`), with a sink that
opens, takes every write and closes, and the identity as Unicode table (the table is not
consulted for ASCII payloads). -/
def cfgDefault : Config :=
  { numWorkers := 4, numTasks := 20, createOK := true, writeOK := fun _ => true,
    partialWrite := fun _ => 0, closeOK := true, unicodeUpper := id }

/-- The output line of worker `w` for the task that the producer numbered `i`, spelled out. -/
def outputLine (w : Int) (i : Nat) : String :=
  "Worker " ++ fmtInt w ++ ": Task " ++ fmtInt (i : Int) ++ " processed => PAYLOAD-" ++
    fmtInt (i : Int)

/-! ## Invariants and measures -/

/-- Whether a worker still counts in `wg`. -/
def WorkerPC.live : WorkerPC → Nat
  | .exited => 0
  | _ => 1

/-- Number of workers that have not yet run `wg.Done()`. -/
def liveCount (ws : List Worker) : Nat := (ws.map fun w => w.pc.live).sum

/-- Position of `main` in the orchestration sequence (`aborted` has everything that `create`
has). -/
def MainPC.phase : MainPC → Nat
  | .start => 0
  | .spawning _ => 1
  | .create => 2
  | .aborted => 2
  | .goCollector => 3
  | .goProducer => 4
  | .waitWorkers => 5
  | .closeResults => 6
  | .waitCollector => 7
  | .finish => 8
  | .done => 9

/-- How many workers have been spawned at a program point of `main`. -/
def spawnedOK (cfg : Config) : MainPC → Nat → Prop
  | .start, n => n = 0
  | .spawning i, n => 1 ≤ i ∧ i ≤ cfg.numWorkers + 1 ∧ n + 1 = i
  | _, n => n = cfg.numWorkers

/-- The counter of `collectorWG` that belongs to a program point of the collector. -/
def CollectorPC.wgCount : CollectorPC → Nat
  | .recv => 1
  | .writing _ => 1
  | _ => 0

/-- The file state that belongs to a phase of `main`. -/
def fileAt (phase : Nat) : FileState :=
  if phase ≤ 2 then .notCreated else if phase ≤ 8 then .opened else .closed

/-- Control invariant of the process: how program points, wait groups, channel flags and the
file handle fit together. -/
structure Ctl (cfg : Config) (s : State) : Prop where
  noPanic : s.panicked = false
  spawned : spawnedOK cfg s.main s.workers.length
  wgLive : s.wg = liveCount s.workers
  cwg : s.collectorWG = s.collector.wgCount
  collSpawn : s.collector = .unspawned ↔ s.main.phase ≤ 3
  prodSpawn : s.producer = .unspawned ↔ s.main.phase ≤ 4
  resClosed : s.results.closed = true ↔ 7 ≤ s.main.phase
  joined : 6 ≤ s.main.phase → s.wg = 0
  collDone : 8 ≤ s.main.phase → s.collector = .finished
  collFin : s.collector = .finished → s.results.closed = true
  taskClosed : s.tasks.closed = true ↔ s.producer = .finished
  idle : s.producer = .unspawned → ∀ w ∈ s.workers, w.pc = .started ∨ w.pc = .recv
  exitedClosed : ∀ w ∈ s.workers, w.pc = .exited → s.tasks.closed = true
  fileSt : s.file = fileAt s.main.phase
  abort : s.main = .aborted → cfg.createOK = false
  created : 3 ≤ s.main.phase → cfg.createOK = true
  loopBound : ∀ i, s.producer = .loop i → 1 ≤ i ∧ i ≤ cfg.numTasks + 1

/-- Remaining work of a worker, in steps it can still be part of before the next task. -/
def WorkerPC.weight : WorkerPC → Nat
  | .exited => 0
  | .recv => 1
  | .started => 2
  | .sent _ => 2
  | .sending _ _ => 4
  | .picked _ => 5

/-- Remaining work of the producer. -/
def ProducerPC.weight (numTasks : Nat) : ProducerPC → Nat
  | .unspawned => 0
  | .loop i => 5 * (numTasks + 1 - i) + 1
  | .finished => 0

/-- Remaining work of the collector. -/
def CollectorPC.weight : CollectorPC → Nat
  | .unspawned => 0
  | .recv => 1
  | .writing _ => 2
  | .finished => 0

/-- Remaining work of `main`, the spawning of collector and producer included. -/
def MainPC.weight (numWorkers numTasks : Nat) : MainPC → Nat
  | .start => 3 * numWorkers + 5 * numTasks + 14
  | .spawning i => 3 * (numWorkers + 1 - i) + 5 * numTasks + 10
  | .create => 5 * numTasks + 9
  | .goCollector => 5 * numTasks + 8
  | .goProducer => 5 * numTasks + 6
  | .waitWorkers => 4
  | .closeResults => 3
  | .waitCollector => 2
  | .finish => 1
  | .done => 0
  | .aborted => 0

/-- Remaining work of the worker pool. -/
def poolWeight (ws : List Worker) : Nat := (ws.map fun w => w.pc.weight).sum

/-- A bound on the number of steps the process can still take. -/
def workLeft (cfg : Config) (s : State) : Nat :=
  if s.halted then 0
  else s.main.weight cfg.numWorkers cfg.numTasks + s.producer.weight cfg.numTasks +
    s.collector.weight + poolWeight s.workers

/-- The hand-over of a channel event, if it is one. -/
def ChanEv.toXfer {α : Type} : ChanEv α → Option (Int × α)
  | .xfer w v => some (w, v)
  | .close => none

/-- The hand-overs of a channel history, in order: worker id and value. -/
def xfers {α : Type} (tr : List (ChanEv α)) : List (Int × α) := tr.filterMap ChanEv.toXfer

/-- A channel history is well formed when it consists of hand-overs, followed by one close
exactly when the channel is closed. -/
def Chan.wellFormed {α : Type} (c : Chan α) : Prop :=
  c.trace = (xfers c.trace).map (fun p => ChanEv.xfer p.1 p.2) ++
    (if c.closed then [ChanEv.close] else [])

/-- What worker `w` will send for task `t`: its line if `processTask` succeeds, nothing
otherwise. -/
def produced (U : Char → Char) (w : Int) (t : Task) : List (Int × String) :=
  match processTask U t with
  | (_, some _) => []
  | (result, none) => [(w, resultLine w result)]

/-- The line a worker has accepted a task for and not yet handed to the collector. -/
def Worker.pending (U : Char → Char) (w : Worker) : List (Int × String) :=
  match w.pc with
  | .picked t => produced U w.id t
  | .sending _ line => [(w.id, line)]
  | _ => []

/-- The lines in flight in the worker pool. -/
def inflight (U : Char → Char) (ws : List Worker) : List (Int × String) :=
  ws.flatMap (Worker.pending U)

/-- The lines that the tasks handed over so far lead to. -/
def expected (U : Char → Char) (T : List (Int × Task)) : List (Int × String) :=
  T.flatMap fun p => produced U p.1 p.2

/-- Number of tasks the producer has handed over at a program point. -/
def ProducerPC.sentCount (numTasks : Nat) : ProducerPC → Nat
  | .unspawned => 0
  | .loop i => i - 1
  | .finished => numTasks

/-- The lines the collector has received, in arrival order. -/
def received (tr : List (ChanEv String)) : List String := (xfers tr).map Prod.snd

/-- The received lines for which `fmt.Fprintln` has already been called. -/
def writtenOf : CollectorPC → List String → List String
  | .writing _, L => L.dropLast
  | _, L => L

/-- Content of a file after the write attempts for the lines `L`, attempt `k` succeeding when
`ok k`; a successful attempt appends the line and a newline, a failed attempt appends the
first `part k` characters of the line. -/
def persisted (ok : Nat → Bool) (part : Nat → Nat) (L : List String) : String :=
  L.enum.foldl
    (fun acc p =>
      if ok p.1 then acc ++ (p.2 ++ "\n") else acc ++ String.mk (p.2.data.take (part p.1)))
    ""

/-- Number of failed attempts among the first `n` writes. -/
def failures (ok : Nat → Bool) (n : Nat) : Nat := ((List.range n).filter fun k => !ok k).length

/-- Data invariant of the process: channel histories, the conservation of lines between the
two channels, and what the sink and the log hold. -/
structure Data (cfg : Config) (s : State) : Prop where
  ids : ∀ w ∈ s.workers, 1 ≤ w.id ∧ w.id ≤ (cfg.numWorkers : Int)
  tasksWF : s.tasks.wellFormed
  resultsWF : s.results.wellFormed
  sentTasks : (xfers s.tasks.trace).map Prod.snd =
    (List.range' 1 (s.producer.sentCount cfg.numTasks)).map mkTask
  receivers : ∀ p ∈ xfers s.tasks.trace, 1 ≤ p.1 ∧ p.1 ≤ (cfg.numWorkers : Int)
  conserve : (xfers s.results.trace ++ inflight cfg.unicodeUpper s.workers).Perm
    (expected cfg.unicodeUpper (xfers s.tasks.trace))
  fresh : s.collector = .unspawned → s.results.trace = []
  holding : ∀ l, s.collector = .writing l → ∃ L, received s.results.trace = L ++ [l]
  writeCount : s.writes = (writtenOf s.collector (received s.results.trace)).length
  sinkOK : s.sink = persisted cfg.writeOK cfg.partialWrite
    (writtenOf s.collector (received s.results.trace))
  errLog : s.log.count .writeError = failures cfg.writeOK s.writes

/-- The lines of a file: the maximal runs of characters between newlines, `cur` being the
reversed run read so far. A last run without newline counts as a line. -/
def splitLines : List Char → List Char → List String
  | cur, [] => if cur = [] then [] else [String.mk cur.reverse]
  | cur, c :: cs =>
    if c = '\n' then String.mk cur.reverse :: splitLines [] cs else splitLines (c :: cur) cs

/-- The lines of the sink. -/
def fileLines (sink : String) : List String := splitLines [] sink.data

/-- The lines `L`, each followed by a newline, concatenated. -/
def concatLines (L : List String) : String := L.foldr (fun l acc => l ++ "\n" ++ acc) ""

/-- The complete lines of a file: the runs of characters that end in a newline, `cur` being
the reversed run read so far. Characters after the last newline belong to no complete
line. -/
def completeLinesFrom : List Char → List Char → List String
  | _, [] => []
  | cur, c :: cs =>
    if c = '\n' then String.mk cur.reverse :: completeLinesFrom [] cs
    else completeLinesFrom (c :: cur) cs

/-- The complete lines of the sink. -/
def completeLines (sink : String) : List String := completeLinesFrom [] sink.data

/-! ## Concrete runs -/

/-- One worker, one task, a sink that works. -/
def cfgSmall : Config :=
  { numWorkers := 1, numTasks := 1, createOK := true, writeOK := fun _ => true,
    partialWrite := fun _ => 0, closeOK := true, unicodeUpper := id }

/-- One worker, one task, a sink that opens and then fails every write after 20
characters. -/
def cfgFailingWrites : Config :=
  { cfgSmall with writeOK := fun _ => false, partialWrite := fun _ => 20 }

/-- The constants of `main` as written, with a sink that cannot be created. -/
def cfgNoSink : Config := { cfgDefault with createOK := false }

/-- A complete schedule for one worker and one task. -/
def smallSchedule : List Action :=
  [.main, .main, .main, .main, .main, .main, .worker 0, .sendTask 0, .worker 0, .sendResult 0,
    .collector, .worker 0, .producer, .worker 0, .main, .main, .collector, .main, .main]

/-- The state at the end of `smallSchedule` with a working sink. -/
def smallFinal : State := (run cfgSmall smallSchedule init).getD init

/-- The state at the end of `smallSchedule` with a sink whose writes fail. -/
def failingFinal : State := (run cfgFailingWrites smallSchedule init).getD init

/-- The schedule of `main` alone up to the call of `os.Create`, for four workers. -/
def abortSchedule : List Action := [.main, .main, .main, .main, .main, .main, .main]

/-- The state after `log.Fatalf` when the sink cannot be created. -/
def abortedState : State := (run cfgNoSink abortSchedule init).getD init

/-- A state of the default configuration in which worker 1 has just taken task 1. -/
def pickedState : State :=
  (run cfgDefault
    [.main, .main, .main, .main, .main, .main, .main, .main, .main, .worker 0, .sendTask 0]
    init).getD init

/-! ## Decimal rendering and upper-casing -/

/-- The character of a decimal digit is `'0'` shifted by the digit. -/
theorem digitChar_toNat (d : Nat) (h : d < 10) : (Nat.digitChar d).toNat = 48 + d := by
  interval_cases d <;> rfl

theorem foldl_toDigitsCore (fuel : Nat) : ∀ (n : Nat) (ds : List Char), n < fuel →
    List.foldl (fun a c => 10 * a + (c.toNat - 48)) 0 (Nat.toDigitsCore 10 fuel n ds)
      = List.foldl (fun a c => 10 * a + (c.toNat - 48)) n ds := by
  induction fuel with
  | zero => intro n ds h; omega
  | succ f ih =>
    intro n ds h
    have hd : (Nat.digitChar (n % 10)).toNat - 48 = n % 10 := by
      rw [digitChar_toNat _ (Nat.mod_lt _ (by decide))]; omega
    unfold Nat.toDigitsCore
    by_cases h0 : n / 10 = 0
    · simp only [h0, if_true, List.foldl_cons, hd]
      congr 1; omega
    · simp only [h0, if_false]
      rw [ih (n / 10) _ (by omega)]
      simp only [List.foldl_cons, hd]
      congr 1; omega

theorem natRepr_injective : Function.Injective Nat.repr := by
  intro a b h
  have key : ∀ n : Nat,
      List.foldl (fun a c => 10 * a + (c.toNat - 48)) 0 (Nat.repr n).data = n := by
    intro n
    simpa [Nat.repr, Nat.toDigits, List.asString] using foldl_toDigitsCore (n + 1) n [] (by omega)
  have := key a
  rw [h, key b] at this
  exact this.symm

theorem toDigitsCore_digits (fuel : Nat) : ∀ (n : Nat) (ds : List Char),
    (∀ c ∈ ds, c.isDigit = true) → ∀ c ∈ Nat.toDigitsCore 10 fuel n ds, c.isDigit = true := by
  induction fuel with
  | zero => intro n ds h; simpa [Nat.toDigitsCore] using h
  | succ f ih =>
    intro n ds h
    have hd : (Nat.digitChar (n % 10)).isDigit = true := by
      have : n % 10 < 10 := Nat.mod_lt _ (by decide)
      interval_cases (n % 10) <;> decide
    unfold Nat.toDigitsCore
    by_cases h0 : n / 10 = 0
    · simp only [h0, if_true]
      intro c hc
      rcases List.mem_cons.1 hc with rfl | hc
      · exact hd
      · exact h c hc
    · simp only [h0, if_false]
      apply ih
      intro c hc
      rcases List.mem_cons.1 hc with rfl | hc
      · exact hd
      · exact h c hc

theorem natRepr_digits (n : Nat) : ∀ c ∈ (Nat.repr n).data, c.isDigit = true := by
  simpa [Nat.repr, Nat.toDigits, List.asString] using toDigitsCore_digits (n + 1) n [] (by simp)

theorem fmtInt_natCast (n : Nat) : fmtInt (n : Int) = Nat.repr n := rfl


theorem isDigit_ascii (c : Char) (h : c.isDigit = true) : c.toNat < 128 ∧ c.toUpper = c := by
  simp only [Char.isDigit, Bool.and_eq_true, decide_eq_true_eq] at h
  obtain ⟨h1, h2⟩ := h
  have h1' : 48 ≤ c.toNat := h1
  have h2' : c.toNat ≤ 57 := h2
  refine ⟨by omega, ?_⟩
  unfold Char.toUpper
  simp only
  rw [if_neg]
  omega

/-- Upper-casing the producer's payload: `strings.ToUpper("payload-<i>") = "PAYLOAD-<i>"`,
whatever the Unicode table. -/
theorem toUpper_payload (U : Char → Char) (i : Nat) :
    ToUpper U (mkTask i).Payload = "PAYLOAD-" ++ fmtInt (i : Int) := by
  have hd := natRepr_digits i
  have hall : ((mkTask i).Payload.data.all fun c => decide (c.toNat < 128)) = true := by
    simp only [mkTask, fmtInt_natCast, String.data_append, List.all_append, Bool.and_eq_true,
      List.all_eq_true, decide_eq_true_eq]
    exact ⟨by decide, fun c hc => (isDigit_ascii c (hd c hc)).1⟩
  have hmap : (Nat.repr i).data.map Char.toUpper = (Nat.repr i).data := by
    conv_rhs => rw [← List.map_id (Nat.repr i).data]
    exact List.map_congr_left fun c hc => (isDigit_ascii c (hd c hc)).2
  unfold ToUpper
  rw [if_pos hall]
  apply String.ext
  simp only [mkTask, fmtInt_natCast, String.data_append, List.map_append, hmap]
  rfl

theorem tmod_seven (a : Int) : a.tmod 7 = 0 ↔ (7 : Int) ∣ a :=
  ⟨Int.dvd_of_tmod_eq_zero, Int.tmod_eq_zero_of_dvd⟩

theorem tmod_seven_nat (i : Nat) : ((i : Int).tmod 7 = 0) ↔ i % 7 = 0 := by
  rw [tmod_seven]
  have : ((7 : Nat) : Int) ∣ (i : Int) ↔ 7 ∣ i := Int.natCast_dvd_natCast
  simpa [Nat.dvd_iff_mod_eq_zero] using this

/-- What `processTask` returns for a task of the producer. -/
theorem processTask_mkTask (U : Char → Char) (i : Nat) :
    processTask U (mkTask i) =
      if i % 7 = 0 then ("", some ("simulated processing error for task " ++ fmtInt (i : Int)))
      else ("Task " ++ fmtInt (i : Int) ++ " processed => PAYLOAD-" ++ fmtInt (i : Int), none) := by
  unfold processTask
  have h := tmod_seven_nat i
  by_cases h7 : i % 7 = 0
  · rw [if_pos (show (mkTask i).ID.tmod 7 = 0 from h.2 h7), if_pos h7]; rfl
  · rw [if_neg (show ¬ (mkTask i).ID.tmod 7 = 0 from fun hh => h7 (h.1 hh)), if_neg h7,
      toUpper_payload]
    refine Prod.ext (String.ext ?_) rfl
    simp [mkTask, String.data_append, List.append_assoc]

theorem resultLine_mkTask (U : Char → Char) (w : Int) (i : Nat) (h7 : i % 7 ≠ 0) :
    resultLine w (processTask U (mkTask i)).1 = outputLine w i := by
  rw [processTask_mkTask, if_neg h7]
  apply String.ext
  simp [resultLine, outputLine, String.data_append, List.append_assoc]

/-! ## The processing function and the worker's line -/

/-- C8. For every task, whatever its integer ID and payload, `processTask` returns an error
exactly when 7 divides the ID; in that case the string is empty and the error reads
"simulated processing error for task <id>"; otherwise the error is nil and the string is
"Task <id> processed => <UPPERCASE(payload)>". -/
theorem processTask_fails_iff_divisible_by_seven (U : Char → Char) (task : Task) :
    ((processTask U task).2 ≠ none ↔ (7 : Int) ∣ task.ID) ∧
    processTask U task =
      if (7 : Int) ∣ task.ID then
        ("", some ("simulated processing error for task " ++ fmtInt task.ID))
      else
        ("Task " ++ fmtInt task.ID ++ " processed => " ++ ToUpper U task.Payload, none) := by
  unfold processTask
  by_cases h : (7 : Int) ∣ task.ID
  · simp [h, (tmod_seven task.ID).2 h]
  · have h' : ¬ task.ID.tmod 7 = 0 := fun hh => h ((tmod_seven _).1 hh)
    simp [h, h']

/-- C6, as stated, fails: worker 1 and the producer's task 1 (payload "payload-1"). After
the hand-over of the task and the worker's processing step, the worker is blocked on the
send of "Worker 1: Task 1 processed => PAYLOAD-1"; the text "1 processed => " is not
repeated. -/
theorem worker_line_not_doubled :
    (run cfgDefault
        [.main, .main, .main, .main, .main, .main, .main, .main, .main, .worker 0, .sendTask 0,
          .worker 0]
        init).map (fun s => s.workers.head?)
      = some (some { id := 1, pc := .sending (mkTask 1) "Worker 1: Task 1 processed => PAYLOAD-1" })
    ∧ "Worker 1: Task 1 processed => PAYLOAD-1"
        ≠ "Worker 1: Task 1 processed => 1 processed => PAYLOAD-1" := by
  constructor
  · rfl
  · decide


/-! ## The control invariant -/

theorem sum_map_set {α : Type} (f : α → Nat) : ∀ (l : List α) (k : Nat) (x y : α),
    l[k]? = some x → ((l.set k y).map f).sum + f x = (l.map f).sum + f y := by
  intro l
  induction l with
  | nil => intro k x y h; simp at h
  | cons a t ih =>
    intro k x y h
    cases k with
    | zero =>
      simp only [List.getElem?_cons_zero, Option.some.injEq] at h
      subst h
      simp only [List.set_cons_zero, List.map_cons, List.sum_cons]
      omega
    | succ k =>
      simp only [List.getElem?_cons_succ] at h
      have := ih k x y h
      simp only [List.set_cons_succ, List.map_cons, List.sum_cons]
      omega

theorem liveCount_set (ws : List Worker) (k : Nat) (w : Worker) (pc : WorkerPC)
    (h : ws[k]? = some w) :
    liveCount (ws.set k { w with pc := pc }) + w.pc.live = liveCount ws + pc.live :=
  sum_map_set (fun w => w.pc.live) ws k w { w with pc := pc } h

theorem live_le_liveCount {ws : List Worker} {k : Nat} {w : Worker} (h : ws[k]? = some w) :
    w.pc.live ≤ liveCount ws := by
  have := sum_map_set (fun w => w.pc.live) ws k w { w with pc := .exited } h
  have e : ({ w with pc := WorkerPC.exited } : Worker).pc.live = 0 := rfl
  beta_reduce at this
  rw [e] at this
  unfold liveCount
  omega

theorem liveCount_set_eq {ws : List Worker} {k : Nat} {w : Worker} (h : ws[k]? = some w)
    (v : Worker) : liveCount (ws.set k v) = liveCount ws + v.pc.live - w.pc.live := by
  have := sum_map_set (fun w => w.pc.live) ws k w v h
  beta_reduce at this
  unfold liveCount
  omega

theorem init_ctl (cfg : Config) : Ctl cfg init := by
  constructor <;> simp [init, spawnedOK, liveCount, CollectorPC.wgCount, MainPC.phase, fileAt]

theorem liveCount_append (ws : List Worker) (w : Worker) :
    liveCount (ws ++ [w]) = liveCount ws + w.pc.live := by
  simp [liveCount]

set_option maxHeartbeats 1000000 in
theorem mainStep_ctl {cfg : Config} {s s' : State} (h : Ctl cfg s)
    (hs : mainStep cfg s = some s') : Ctl cfg s' := by
  obtain ⟨h1, h2, h3, h4, h5, h6, h7, h8, h9, h10, h11, h12, h13, h14, h15, h16, h17⟩ := h
  unfold mainStep at hs
  cases hm : s.main <;> simp only [hm] at hs <;> (try split at hs) <;>
    simp only [Option.some.injEq, reduceCtorEq] at hs <;> subst hs <;>
    simp [hm, spawnedOK, MainPC.phase, fileAt] at h2 h5 h6 h7 h8 h9 h14 h15 h16 <;>
    constructor <;> dsimp only [crash] <;>
    first
    | assumption
    | omega
    | (simp [*, spawnedOK, liveCount_append, WorkerPC.live, CollectorPC.wgCount, MainPC.phase,
        fileAt]; done)
    | (simp [*, spawnedOK, liveCount_append, WorkerPC.live, CollectorPC.wgCount, MainPC.phase,
        fileAt]; omega)
    | (simp_all [MainPC.phase]; done)
    | (cases hc : s.collector <;> simp_all [CollectorPC.wgCount, MainPC.phase]; done)
    | (intro hp w hw
       rcases List.mem_append.1 hw with hw | hw
       · exact h12 hp w hw
       · simp at hw; simp [hw])
    | (intro w hw hx
       rcases List.mem_append.1 hw with hw | hw
       · rcases h12 h6 w hw with e | e <;> simp [e] at hx
       · simp at hw; simp [hw] at hx)


set_option maxHeartbeats 1000000 in
theorem workerStep_ctl {cfg : Config} {s s' : State} {k : Nat} (h : Ctl cfg s)
    (hs : workerStep cfg k s = some s') : Ctl cfg s' := by
  obtain ⟨h1, h2, h3, h4, h5, h6, h7, h8, h9, h10, h11, h12, h13, h14, h15, h16, h17⟩ := h
  unfold workerStep at hs
  cases hk : s.workers[k]? with
  | none => simp [hk] at hs
  | some w =>
    have hmem : w ∈ s.workers := List.getElem?_mem hk
    have hle := live_le_liveCount hk
    have hset := fun v => liveCount_set_eq hk v
    have hidle := fun hp => h12 hp w hmem
    have hex := h13 w hmem
    simp only [hk] at hs
    cases hp : w.pc <;> simp only [hp] at hs <;> (try split at hs) <;> (try split at hs) <;>
      simp only [Option.some.injEq, reduceCtorEq] at hs <;> subst hs <;>
      simp only [hp, WorkerPC.live] at hle hidle hex <;>
      constructor <;> dsimp only [crash, setPC] <;>
      first
      | assumption
      | omega
      | (simp [*, WorkerPC.live]; done)
      | (simp [*, WorkerPC.live]; omega)
      | (simp_all [WorkerPC.live]; done)
      | (exfalso; have a := h7.1 ‹_›; have b := h8 (by omega); omega)
      | (intro v hv hx
         rcases List.mem_or_eq_of_mem_set hv with hv | rfl
         · exact h13 v hv hx
         · simp at hx)
      | (intro hprod v hv
         rcases List.mem_or_eq_of_mem_set hv with hv | rfl
         · exact h12 hprod v hv
         · simp)


set_option maxHeartbeats 1000000 in
theorem producerStep_ctl {cfg : Config} {s s' : State} (h : Ctl cfg s)
    (hs : producerStep cfg s = some s') : Ctl cfg s' := by
  obtain ⟨h1, h2, h3, h4, h5, h6, h7, h8, h9, h10, h11, h12, h13, h14, h15, h16, h17⟩ := h
  unfold producerStep at hs
  cases hp : s.producer <;> simp only [hp] at hs <;> (try split at hs) <;> (try split at hs) <;>
    simp only [Option.some.injEq, reduceCtorEq] at hs <;> subst hs <;>
    simp [hp] at h6 h11 h12 <;>
    constructor <;> dsimp only [crash] <;>
    first
    | assumption
    | omega
    | (simp [*]; done)
    | (simp_all)

set_option maxHeartbeats 1000000 in
theorem sendTask_ctl {cfg : Config} {s s' : State} {k : Nat} (h : Ctl cfg s)
    (hs : sendTask cfg k s = some s') : Ctl cfg s' := by
  obtain ⟨h1, h2, h3, h4, h5, h6, h7, h8, h9, h10, h11, h12, h13, h14, h15, h16, h17⟩ := h
  unfold sendTask at hs
  split at hs
  · rename_i i w hp hk
    have hmem : w ∈ s.workers := List.getElem?_mem hk
    have hle := live_le_liveCount hk
    have hset := fun v => liveCount_set_eq hk v
    have hb := h17 i hp
    split at hs
    · rename_i hc
      obtain ⟨hi, hcl, hpc⟩ := hc
      simp only [Option.some.injEq] at hs
      subst hs
      simp only [hpc, WorkerPC.live] at hle
      simp [hp] at h6 h11
      constructor <;> dsimp only [setPC] <;>
      first
      | assumption
      | omega
      | (simp [*, WorkerPC.live]; done)
      | (simp [*, WorkerPC.live]; omega)
      | (simp_all [WorkerPC.live]; done)
      | (intro v hv hx
         rcases List.mem_or_eq_of_mem_set hv with hv | rfl
         · exact h13 v hv hx
         · simp at hx)
    · simp at hs
  · simp at hs

set_option maxHeartbeats 1000000 in
theorem sendResult_ctl {s s' : State} {cfg : Config} {k : Nat} (h : Ctl cfg s)
    (hs : sendResult k s = some s') : Ctl cfg s' := by
  obtain ⟨h1, h2, h3, h4, h5, h6, h7, h8, h9, h10, h11, h12, h13, h14, h15, h16, h17⟩ := h
  unfold sendResult at hs
  split at hs
  · rename_i w hc hk
    have hmem : w ∈ s.workers := List.getElem?_mem hk
    have hle := live_le_liveCount hk
    have hset := fun v => liveCount_set_eq hk v
    have hidle := fun hp => h12 hp w hmem
    split at hs
    · rename_i t line hpc
      split at hs
      · simp only [Option.some.injEq] at hs
        subst hs
        simp only [hpc, WorkerPC.live] at hle hidle
        simp [hc, CollectorPC.wgCount] at h4 h5 h9 h10
        constructor <;> dsimp only [setPC] <;>
        first
        | assumption
        | omega
        | (simp [*, WorkerPC.live, CollectorPC.wgCount]; done)
        | (simp [*, WorkerPC.live, CollectorPC.wgCount]; omega)
        | (simp_all [WorkerPC.live, CollectorPC.wgCount]; done)
        | (intro v hv hx
           rcases List.mem_or_eq_of_mem_set hv with hv | rfl
           · exact h13 v hv hx
           · simp at hx)
      · simp at hs
    · simp at hs
  · simp at hs

set_option maxHeartbeats 1000000 in
theorem collectorStep_ctl {cfg : Config} {s s' : State} (h : Ctl cfg s)
    (hs : collectorStep cfg s = some s') : Ctl cfg s' := by
  obtain ⟨h1, h2, h3, h4, h5, h6, h7, h8, h9, h10, h11, h12, h13, h14, h15, h16, h17⟩ := h
  unfold collectorStep at hs
  cases hc : s.collector <;> simp only [hc] at hs <;> (try split at hs) <;> (try split at hs) <;>
    simp only [Option.some.injEq, reduceCtorEq] at hs <;> subst hs <;>
    simp [hc, CollectorPC.wgCount] at h4 h5 h9 h10 <;>
    constructor <;> dsimp only [crash] <;>
    first
    | assumption
    | omega
    | (simp [*, CollectorPC.wgCount])


theorem step_ctl {cfg : Config} {a : Action} {s s' : State} (h : Ctl cfg s)
    (hs : step cfg a s = some s') : Ctl cfg s' := by
  unfold step at hs
  split at hs
  · simp at hs
  · cases a with
    | main => exact mainStep_ctl h hs
    | worker k => exact workerStep_ctl h hs
    | producer => exact producerStep_ctl h hs
    | collector => exact collectorStep_ctl h hs
    | sendTask k => exact sendTask_ctl h hs
    | sendResult k => exact sendResult_ctl h hs

/-- A property that holds initially and is kept by every step holds in every reachable state. -/
theorem run_induction {cfg : Config} (P : State → Prop)
    (hstep : ∀ a s s', P s → step cfg a s = some s' → P s') :
    ∀ (as : List Action) (s s' : State), P s → run cfg as s = some s' → P s' := by
  intro as
  induction as with
  | nil =>
    intro s s' hp hr
    simp only [run, Option.some.injEq] at hr
    exact hr ▸ hp
  | cons a as ih =>
    intro s s' hp hr
    simp only [run] at hr
    cases hst : step cfg a s with
    | none => simp [hst] at hr
    | some s1 =>
      simp only [hst, Option.some_bind] at hr
      exact ih s1 s' (hstep a s s1 hp hst) hr

theorem reachable_ctl {cfg : Config} {s : State} (h : Reachable cfg s) : Ctl cfg s := by
  obtain ⟨as, hr⟩ := h
  exact run_induction (Ctl cfg) (fun _ _ _ hp hs => step_ctl hp hs) as init s (init_ctl cfg) hr

/-- The two loop counters of `main` never exceed `numWorkers + 1` and `numTasks + 1`: for
constants below `2^63 - 1` no `int` of the program wraps around. -/
theorem counters_bounded {cfg : Config} {s : State} (h : Reachable cfg s) :
    (∀ i, s.main = MainPC.spawning i → i ≤ cfg.numWorkers + 1) ∧
    (∀ i, s.producer = ProducerPC.loop i → i ≤ cfg.numTasks + 1) := by
  have hc := reachable_ctl h
  refine ⟨fun i hm => ?_, fun i hp => (hc.loopBound i hp).2⟩
  have := hc.spawned
  rw [hm] at this
  exact this.2.1

/-! ## Termination measure -/

theorem weight_le_poolWeight {ws : List Worker} {k : Nat} {w : Worker} (h : ws[k]? = some w) :
    w.pc.weight ≤ poolWeight ws := by
  have := sum_map_set (fun w => w.pc.weight) ws k w { w with pc := .exited } h
  have e : ({ w with pc := WorkerPC.exited } : Worker).pc.weight = 0 := rfl
  beta_reduce at this
  rw [e] at this
  unfold poolWeight
  omega

theorem poolWeight_set_eq {ws : List Worker} {k : Nat} {w : Worker} (h : ws[k]? = some w)
    (v : Worker) : poolWeight (ws.set k v) = poolWeight ws + v.pc.weight - w.pc.weight := by
  have := sum_map_set (fun w => w.pc.weight) ws k w v h
  beta_reduce at this
  unfold poolWeight
  omega

theorem poolWeight_append (ws : List Worker) (w : Worker) :
    poolWeight (ws ++ [w]) = poolWeight ws + w.pc.weight := by
  simp [poolWeight]

theorem weight_pos_of_running (cfg : Config) {s : State} (hh : s.halted = false) :
    1 ≤ s.main.weight cfg.numWorkers cfg.numTasks := by
  cases hm : s.main <;> simp [State.halted, MainPC.halted, hm] at hh <;> simp [MainPC.weight]

set_option maxHeartbeats 1000000 in
theorem mainStep_decreases {cfg : Config} {s s' : State} (hh : s.halted = false)
    (hs : mainStep cfg s = some s') : workLeft cfg s' < workLeft cfg s := by
  unfold mainStep at hs
  unfold workLeft
  rw [hh]
  cases hm : s.main <;> simp only [hm] at hs <;> (try split at hs) <;>
    simp only [Option.some.injEq, reduceCtorEq] at hs <;> subst hs <;>
    simp [State.halted, MainPC.halted, hm, crash] at hh ⊢ <;>
    simp [hh, MainPC.weight, WorkerPC.weight, ProducerPC.weight, CollectorPC.weight,
      poolWeight_append] <;> omega

set_option maxHeartbeats 1000000 in
theorem workerStep_decreases {cfg : Config} {s s' : State} {k : Nat} (hh : s.halted = false)
    (hs : workerStep cfg k s = some s') : workLeft cfg s' < workLeft cfg s := by
  unfold workerStep at hs
  unfold workLeft
  rw [hh]
  have hm := weight_pos_of_running cfg hh
  cases hk : s.workers[k]? with
  | none => simp [hk] at hs
  | some w =>
    have hle := weight_le_poolWeight hk
    simp only [hk] at hs
    cases hp : w.pc <;> simp only [hp] at hs <;> (try split at hs) <;> (try split at hs) <;>
      simp only [Option.some.injEq, reduceCtorEq] at hs <;> subst hs <;>
      simp only [State.halted, crash, setPC, Bool.true_or, Bool.or_eq_false_iff, if_true,
        poolWeight_set_eq hk] at hh ⊢ <;>
      (try simp only [State.halted, hh, Bool.or_self, Bool.false_eq_true, if_false]) <;>
      simp only [hp, WorkerPC.weight] at hle ⊢ <;>
      omega

set_option maxHeartbeats 1000000 in
theorem producerStep_decreases {cfg : Config} {s s' : State} (hh : s.halted = false)
    (hs : producerStep cfg s = some s') : workLeft cfg s' < workLeft cfg s := by
  unfold producerStep at hs
  unfold workLeft
  rw [hh]
  have hm := weight_pos_of_running cfg hh
  cases hp : s.producer <;> simp only [hp] at hs <;> (try split at hs) <;> (try split at hs) <;>
    simp only [Option.some.injEq, reduceCtorEq] at hs <;> subst hs <;>
    simp only [State.halted, crash, Bool.true_or, Bool.or_eq_false_iff, if_true] at hh ⊢ <;>
    (try simp only [State.halted, hh, Bool.or_self, Bool.false_eq_true, if_false]) <;>
    simp only [ProducerPC.weight] <;>
    omega

set_option maxHeartbeats 1000000 in
theorem collectorStep_decreases {cfg : Config} {s s' : State} (hh : s.halted = false)
    (hs : collectorStep cfg s = some s') : workLeft cfg s' < workLeft cfg s := by
  unfold collectorStep at hs
  unfold workLeft
  rw [hh]
  have hm := weight_pos_of_running cfg hh
  cases hp : s.collector <;> simp only [hp] at hs <;> (try split at hs) <;> (try split at hs) <;>
    simp only [Option.some.injEq, reduceCtorEq] at hs <;> subst hs <;>
    simp only [State.halted, crash, Bool.true_or, Bool.or_eq_false_iff, if_true] at hh ⊢ <;>
    (try simp only [State.halted, hh, Bool.or_self, Bool.false_eq_true, if_false]) <;>
    simp only [CollectorPC.weight] <;>
    omega

theorem sendTask_decreases {cfg : Config} {s s' : State} {k : Nat} (hh : s.halted = false)
    (hs : sendTask cfg k s = some s') : workLeft cfg s' < workLeft cfg s := by
  unfold sendTask at hs
  unfold workLeft
  rw [hh]
  split at hs
  · rename_i i w hp hk
    have hle := weight_le_poolWeight hk
    split at hs
    · rename_i hc
      obtain ⟨hi, hcl, hpc⟩ := hc
      simp only [Option.some.injEq] at hs
      subst hs
      simp only [State.halted, setPC, Bool.or_eq_false_iff, poolWeight_set_eq hk] at hh ⊢
      simp only [State.halted, hh, Bool.or_self, Bool.false_eq_true, if_false]
      simp only [hp, hpc, WorkerPC.weight, ProducerPC.weight] at hle ⊢
      omega
    · simp at hs
  · simp at hs

theorem sendResult_decreases {cfg : Config} {s s' : State} {k : Nat} (hh : s.halted = false)
    (hs : sendResult k s = some s') : workLeft cfg s' < workLeft cfg s := by
  unfold sendResult at hs
  unfold workLeft
  rw [hh]
  split at hs
  · rename_i w hc hk
    have hle := weight_le_poolWeight hk
    split at hs
    · rename_i t line hpc
      split at hs
      · simp only [Option.some.injEq] at hs
        subst hs
        simp only [State.halted, setPC, Bool.or_eq_false_iff, poolWeight_set_eq hk] at hh ⊢
        simp only [State.halted, hh, Bool.or_self, Bool.false_eq_true, if_false]
        simp only [hc, hpc, WorkerPC.weight, CollectorPC.weight] at hle ⊢
        omega
      · simp at hs
    · simp at hs
  · simp at hs

theorem step_decreases {cfg : Config} {a : Action} {s s' : State}
    (hs : step cfg a s = some s') : workLeft cfg s' < workLeft cfg s := by
  unfold step at hs
  split at hs
  · simp at hs
  · rename_i hh
    have hh : s.halted = false := by simpa using hh
    cases a with
    | main => exact mainStep_decreases hh hs
    | worker k => exact workerStep_decreases hh hs
    | producer => exact producerStep_decreases hh hs
    | collector => exact collectorStep_decreases hh hs
    | sendTask k => exact sendTask_decreases hh hs
    | sendResult k => exact sendResult_decreases hh hs

theorem run_length_le {cfg : Config} : ∀ (as : List Action) (s s' : State),
    run cfg as s = some s' → as.length + workLeft cfg s' ≤ workLeft cfg s := by
  intro as
  induction as with
  | nil =>
    intro s s' hr
    simp only [run, Option.some.injEq] at hr
    subst hr; simp
  | cons a as ih =>
    intro s s' hr
    simp only [run] at hr
    cases hst : step cfg a s with
    | none => simp [hst] at hr
    | some s1 =>
      simp only [hst, Option.some_bind] at hr
      have h1 := ih s1 s' hr
      have h2 := step_decreases hst
      simp only [List.length_cons]
      omega


/-! ## Progress -/

theorem exists_live : ∀ (ws : List Worker), 0 < liveCount ws →
    ∃ (k : Nat) (w : Worker), ws[k]? = some w ∧ w.pc ≠ WorkerPC.exited := by
  intro ws
  induction ws with
  | nil => intro h; simp [liveCount] at h
  | cons a t ih =>
    intro h
    by_cases ha : a.pc = WorkerPC.exited
    · have ht : 0 < liveCount t := by
        simp only [liveCount, List.map_cons, List.sum_cons, ha, WorkerPC.live] at h
        simpa [liveCount] using h
      obtain ⟨k, w, hk, hw⟩ := ih ht
      exact ⟨k + 1, w, by rw [List.getElem?_cons_succ]; exact hk, hw⟩
    · exact ⟨0, a, List.getElem?_cons_zero, ha⟩

theorem all_exited_of_liveCount : ∀ (ws : List Worker), liveCount ws = 0 →
    ∀ w ∈ ws, w.pc = WorkerPC.exited := by
  intro ws h w hw
  by_contra hne
  obtain ⟨k, hk⟩ := List.getElem?_of_mem hw
  have := live_le_liveCount hk
  have hl : w.pc.live = 1 := by
    cases hp : w.pc <;> simp_all [WorkerPC.live]
  omega

/-- In a state of the control invariant in which the process has not ended, some action is
enabled. -/
theorem progress {cfg : Config} {s : State} (h : Ctl cfg s) (hh : s.halted = false) :
    ∃ a, (step cfg a s).isSome = true := by
  obtain ⟨h1, h2, h3, h4, h5, h6, h7, h8, h9, h10, h11, h12, h13, h14, h15, h16, h17⟩ := h
  cases hm : s.main
  case done => simp [State.halted, MainPC.halted, hm] at hh
  case aborted => simp [State.halted, MainPC.halted, hm] at hh
  case waitWorkers =>
    simp [hm, MainPC.phase] at h5 h6 h7
    by_cases hw : s.wg = 0
    · exact ⟨.main, by simp [step, hh, mainStep, hm, hw]⟩
    · obtain ⟨k, w, hk, hne⟩ := exists_live s.workers (by omega)
      cases hp : w.pc with
      | exited => exact absurd hp hne
      | started => exact ⟨.worker k, by simp [step, hh, workerStep, hk, hp]⟩
      | sent t => exact ⟨.worker k, by simp [step, hh, workerStep, hk, hp]⟩
      | picked t =>
        refine ⟨.worker k, ?_⟩
        simp only [step, hh, Bool.false_eq_true, if_false, workerStep, hk, hp]
        split <;> simp
      | recv =>
        by_cases hc : s.tasks.closed = true
        · exact ⟨.worker k, by simp [step, hh, workerStep, hk, hp, hc, hw]⟩
        · cases hpr : s.producer with
          | unspawned => exact absurd hpr h6
          | finished => exact absurd (h11.2 hpr) hc
          | loop i =>
            by_cases hi : i ≤ cfg.numTasks
            · exact ⟨.sendTask k, by simp [step, hh, sendTask, hk, hp, hpr, hi, hc]⟩
            · exact ⟨.producer, by simp [step, hh, producerStep, hpr, hi, hc]⟩
      | sending t line =>
        cases hcl : s.collector with
        | unspawned => exact absurd hcl h5
        | finished => simp [h10 hcl] at h7
        | recv => exact ⟨.sendResult k, by simp [step, hh, sendResult, hk, hp, hcl, h7]⟩
        | writing l =>
          refine ⟨.collector, ?_⟩
          simp only [step, hh, Bool.false_eq_true, if_false, collectorStep, hcl]
          split <;> simp
  case waitCollector =>
    simp [hm, MainPC.phase] at h5 h7
    by_cases hw : s.collectorWG = 0
    · exact ⟨.main, by simp [step, hh, mainStep, hm, hw]⟩
    · cases hcl : s.collector with
      | unspawned => exact absurd hcl h5
      | finished => simp [hcl, CollectorPC.wgCount] at h4; exact absurd h4 hw
      | recv => exact ⟨.collector, by simp [step, hh, collectorStep, hcl, h7, hw]⟩
      | writing l =>
        refine ⟨.collector, ?_⟩
        simp only [step, hh, Bool.false_eq_true, if_false, collectorStep, hcl]
        split <;> simp
  all_goals
    refine ⟨.main, ?_⟩
    simp only [step, hh, Bool.false_eq_true, if_false, mainStep, hm]
    first
    | (simp)
    | (split <;> simp)


/-! ## The data invariant -/

theorem xfers_append_xfer {α : Type} (tr : List (ChanEv α)) (w : Int) (v : α) :
    xfers (tr ++ [ChanEv.xfer w v]) = xfers tr ++ [(w, v)] := by
  simp [xfers, List.filterMap_append, ChanEv.toXfer]

theorem xfers_append_close {α : Type} (tr : List (ChanEv α)) :
    xfers (tr ++ [ChanEv.close]) = xfers tr := by
  simp [xfers, List.filterMap_append, ChanEv.toXfer]

theorem received_append_xfer (tr : List (ChanEv String)) (w : Int) (l : String) :
    received (tr ++ [ChanEv.xfer w l]) = received tr ++ [l] := by
  simp [received, xfers_append_xfer]

theorem received_append_close (tr : List (ChanEv String)) :
    received (tr ++ [ChanEv.close]) = received tr := by
  simp [received, xfers_append_close]

theorem inflight_append (U : Char → Char) (ws : List Worker) (w : Worker) :
    inflight U (ws ++ [w]) = inflight U ws ++ w.pending U := by
  simp [inflight, List.flatMap_append]

theorem expected_append (U : Char → Char) (T : List (Int × Task)) (w : Int) (t : Task) :
    expected U (T ++ [(w, t)]) = expected U T ++ produced U w t := by
  simp [expected, List.flatMap_append]

theorem inflight_set (U : Char → Char) : ∀ (ws : List Worker) (k : Nat) (w v : Worker),
    ws[k]? = some w →
    (inflight U (ws.set k v) ++ w.pending U).Perm (inflight U ws ++ v.pending U) := by
  intro ws
  induction ws with
  | nil => intro k w v h; simp at h
  | cons a t ih =>
    intro k w v h
    cases k with
    | zero =>
      simp only [List.getElem?_cons_zero, Option.some.injEq] at h
      subst h
      simp only [List.set_cons_zero, inflight, List.flatMap_cons]
      generalize Worker.pending U v = pv
      generalize Worker.pending U a = pa
      generalize t.flatMap (Worker.pending U) = F
      refine (@List.perm_append_comm _ (pv ++ F) pa).trans ?_
      rw [List.append_assoc]
      exact List.Perm.append_left _ List.perm_append_comm
    | succ k =>
      simp only [List.getElem?_cons_succ] at h
      have := ih k w v h
      simp only [List.set_cons_succ, inflight, List.flatMap_cons, List.append_assoc] at this ⊢
      exact List.Perm.append_left _ this

theorem inflight_set_same (U : Char → Char) {ws : List Worker} {k : Nat} {w : Worker}
    (h : ws[k]? = some w) (v : Worker) (hv : v.pending U = w.pending U) :
    (inflight U (ws.set k v)).Perm (inflight U ws) := by
  have := inflight_set U ws k w v h
  rw [hv] at this
  exact (List.perm_append_right_iff _).1 this

theorem persisted_nil (ok : Nat → Bool) (part : Nat → Nat) : persisted ok part [] = "" := rfl

theorem persisted_append (ok : Nat → Bool) (part : Nat → Nat) (L : List String) (l : String) :
    persisted ok part (L ++ [l]) =
      if ok L.length then persisted ok part L ++ (l ++ "\n")
      else persisted ok part L ++ String.mk (l.data.take (part L.length)) := by
  simp [persisted, List.enum_append, List.enumFrom_cons, List.foldl_append]

theorem failures_succ (ok : Nat → Bool) (n : Nat) :
    failures ok (n + 1) = failures ok n + (if ok n then 0 else 1) := by
  unfold failures
  rw [List.range_succ, List.filter_append, List.length_append]
  cases h : ok n <;> simp [h]

theorem count_append_other (log : List LogMsg) (m : LogMsg) (h : m ≠ LogMsg.writeError) :
    (log ++ [m]).count LogMsg.writeError = log.count LogMsg.writeError := by
  simp [List.count_append, List.count_cons, h]

theorem init_data (cfg : Config) : Data cfg init := by
  constructor <;>
    simp [init, Chan.wellFormed, xfers, received, writtenOf, persisted_nil, failures, inflight,
      expected, ProducerPC.sentCount]


set_option maxHeartbeats 1000000 in
theorem mainStep_data {cfg : Config} {s s' : State} (hc : Ctl cfg s) (h : Data cfg s)
    (hs : mainStep cfg s = some s') : Data cfg s' := by
  obtain ⟨h1, h2, h3, h4, h5, h6, h7, h8, h9, h10, h11, h12, h13, h14, h15, h16, h17⟩ := hc
  obtain ⟨d1, d2, d3, d4, d5, d6, d7, d8, d9, d10, d11⟩ := h
  unfold mainStep at hs
  cases hm : s.main <;> simp only [hm] at hs <;> (try split at hs) <;>
    simp only [Option.some.injEq, reduceCtorEq] at hs <;> subst hs <;>
    simp [hm, spawnedOK, MainPC.phase] at h2 h5 h6 h7 <;>
    constructor <;> dsimp only [crash] <;>
    first
    | assumption
    | (simp only [xfers_append_close, received_append_close, inflight_append, Worker.pending,
        List.append_nil]; assumption)
    | (simp [*, count_append_other]; done)
    | (simp [*, ProducerPC.sentCount]; done)
    | (simp [h5, d7 h5, received, xfers, writtenOf, persisted_nil]; done)
    | (simp only [h5, writtenOf] at d9 d10 ⊢; assumption)
    | (intro w hw
       rcases List.mem_append.1 hw with hw | hw
       · exact d1 w hw
       · simp only [List.mem_singleton] at hw
         subst hw
         constructor <;> dsimp only <;> omega)
    | (simp only [Chan.wellFormed, xfers_append_close] at d3 ⊢
       simp [h7] at d3
       simp [← d3])


theorem ids_set {cfg : Config} {ws : List Worker} {k : Nat} {w : Worker} (hk : ws[k]? = some w)
    (pc : WorkerPC) (h : ∀ w ∈ ws, 1 ≤ w.id ∧ w.id ≤ (cfg.numWorkers : Int)) :
    ∀ v ∈ ws.set k { id := w.id, pc := pc }, 1 ≤ v.id ∧ v.id ≤ (cfg.numWorkers : Int) := by
  intro v hv
  rcases List.mem_or_eq_of_mem_set hv with hv | rfl
  · exact h v hv
  · exact h w (List.getElem?_mem hk)

theorem conserve_set (U : Char → Char) {ws : List Worker} {k : Nat} {w : Worker}
    (hk : ws[k]? = some w) (v : Worker) (hv : v.pending U = w.pending U)
    {R E : List (Int × String)} (h : (R ++ inflight U ws).Perm E) :
    (R ++ inflight U (ws.set k v)).Perm E :=
  (List.Perm.append_left R (inflight_set_same U hk v hv)).trans h

set_option maxHeartbeats 1000000 in
theorem workerStep_data {cfg : Config} {s s' : State} {k : Nat}
    (h : Data cfg s) (hs : workerStep cfg k s = some s') : Data cfg s' := by
  obtain ⟨d1, d2, d3, d4, d5, d6, d7, d8, d9, d10, d11⟩ := h
  unfold workerStep at hs
  cases hk : s.workers[k]? with
  | none => simp [hk] at hs
  | some w =>
    have hids := fun pc => ids_set hk pc d1
    have hcons := fun v hv => conserve_set cfg.unicodeUpper hk v hv d6
    simp only [hk] at hs
    cases hp : w.pc <;> simp only [hp] at hs <;> (try split at hs) <;> (try split at hs) <;>
      simp only [Option.some.injEq, reduceCtorEq] at hs <;> subst hs <;>
      constructor <;> dsimp only [crash, setPC] <;>
      first
      | assumption
      | exact hids _
      | (apply hcons; simp [Worker.pending, produced, *])
      | (simp [*, List.count_append, List.count_cons])


theorem wellFormed_close {α : Type} {c : Chan α} (h : c.wellFormed) (hc : c.closed = false) :
    Chan.wellFormed { closed := true, trace := c.trace ++ [ChanEv.close] } := by
  unfold Chan.wellFormed at h ⊢
  simp only [hc, Bool.false_eq_true, if_false, List.append_nil] at h
  simp only [xfers_append_close, if_true]
  rw [← h]

theorem wellFormed_xfer {α : Type} {c : Chan α} (h : c.wellFormed) (hc : c.closed = false)
    (w : Int) (v : α) :
    Chan.wellFormed { c with trace := c.trace ++ [ChanEv.xfer w v] } := by
  unfold Chan.wellFormed at h ⊢
  simp only [hc, Bool.false_eq_true, if_false, List.append_nil] at h ⊢
  simp only [xfers_append_xfer, List.map_append, List.map_cons, List.map_nil]
  rw [← h]

set_option maxHeartbeats 1000000 in
theorem producerStep_data {cfg : Config} {s s' : State} (hc : Ctl cfg s) (h : Data cfg s)
    (hs : producerStep cfg s = some s') : Data cfg s' := by
  obtain ⟨d1, d2, d3, d4, d5, d6, d7, d8, d9, d10, d11⟩ := h
  have hb := hc.loopBound
  unfold producerStep at hs
  cases hp : s.producer <;> simp only [hp] at hs <;> (try split at hs) <;> (try split at hs) <;>
    simp only [Option.some.injEq, reduceCtorEq] at hs <;> subst hs <;>
    constructor <;> dsimp only [crash] <;>
    first
    | assumption
    | (simp only [xfers_append_close]; assumption)
    | (simp [*, count_append_other])
    | (apply wellFormed_close d2; simpa using ‹¬ s.tasks.closed = true›)
    | (rename_i i _ _
       have := hb i hp
       have e : i - 1 = cfg.numTasks := by omega
       simp only [xfers_append_close, d4, hp, ProducerPC.sentCount, e])

theorem sendTask_data {cfg : Config} {s s' : State} {k : Nat} (hc : Ctl cfg s) (h : Data cfg s)
    (hs : sendTask cfg k s = some s') : Data cfg s' := by
  obtain ⟨d1, d2, d3, d4, d5, d6, d7, d8, d9, d10, d11⟩ := h
  have hb := hc.loopBound
  unfold sendTask at hs
  split at hs
  · rename_i i w hp hk
    have hmem : w ∈ s.workers := List.getElem?_mem hk
    split at hs
    · rename_i hcond
      obtain ⟨hi, hcl, hpc⟩ := hcond
      simp only [Option.some.injEq] at hs
      subst hs
      obtain ⟨j, rfl⟩ : ∃ j, i = j + 1 := ⟨i - 1, by have := hb i hp; omega⟩
      constructor <;> dsimp only [setPC]
      · exact ids_set hk _ d1
      · exact wellFormed_xfer d2 hcl _ _
      · exact d3
      · simp only [xfers_append_xfer, List.map_append, d4, hp, ProducerPC.sentCount,
          Nat.add_sub_cancel, List.range'_concat, List.map_cons, List.map_nil, Nat.one_mul]
        rw [Nat.add_comm 1 j]
      · intro p hp'
        simp only [xfers_append_xfer, List.mem_append, List.mem_singleton] at hp'
        rcases hp' with hp' | rfl
        · exact d5 p hp'
        · exact d1 w hmem
      · simp only [xfers_append_xfer, expected_append]
        have h1 := inflight_set cfg.unicodeUpper s.workers k w
          { id := w.id, pc := WorkerPC.picked (mkTask (j + 1)) } hk
        simp only [Worker.pending, hpc, List.append_nil] at h1
        exact (List.Perm.append_left _ h1).trans
          (by rw [← List.append_assoc]; exact List.Perm.append_right _ d6)
      · exact d7
      · exact d8
      · exact d9
      · exact d10
      · exact d11
    · simp at hs
  · simp at hs

theorem sendResult_data {cfg : Config} {s s' : State} {k : Nat} (h : Data cfg s)
    (hs : sendResult k s = some s') : Data cfg s' := by
  obtain ⟨d1, d2, d3, d4, d5, d6, d7, d8, d9, d10, d11⟩ := h
  unfold sendResult at hs
  split at hs
  · rename_i w hcl hk
    split at hs
    · rename_i t line hpc
      split at hs
      · rename_i hopen
        simp only [Option.some.injEq] at hs
        subst hs
        simp only [hcl, writtenOf] at d9 d10
        constructor <;> dsimp only [setPC]
        · exact ids_set hk _ d1
        · exact d2
        · exact wellFormed_xfer d3 hopen _ _
        · exact d4
        · exact d5
        · simp only [xfers_append_xfer]
          have h1 := inflight_set cfg.unicodeUpper s.workers k w
            { id := w.id, pc := WorkerPC.sent t } hk
          simp only [Worker.pending, hpc, List.append_nil] at h1
          rw [List.append_assoc]
          refine (List.Perm.append_left _ ?_).trans d6
          exact List.perm_append_comm.trans h1
        · intro hx; simp at hx
        · intro l hl
          simp only [CollectorPC.writing.injEq] at hl
          subst hl
          exact ⟨received s.results.trace, received_append_xfer _ _ _⟩
        · simp only [received_append_xfer, writtenOf, List.dropLast_concat]
          exact d9
        · simp only [received_append_xfer, writtenOf, List.dropLast_concat]
          exact d10
        · exact d11
      · simp at hs
    · simp at hs
  · simp at hs

theorem collectorStep_data {cfg : Config} {s s' : State} (hc : Ctl cfg s) (h : Data cfg s)
    (hs : collectorStep cfg s = some s') : Data cfg s' := by
  obtain ⟨d1, d2, d3, d4, d5, d6, d7, d8, d9, d10, d11⟩ := h
  unfold collectorStep at hs
  cases hcl : s.collector with
  | unspawned => simp [hcl] at hs
  | finished => simp [hcl] at hs
  | recv =>
    simp only [hcl] at hs
    simp only [hcl, writtenOf] at d9 d10
    split at hs
    · split at hs <;> simp only [Option.some.injEq] at hs <;> subst hs <;>
        constructor <;> dsimp only [crash] <;>
        first
        | assumption
        | (intro hx; simp at hx)
        | (intro l hx; simp at hx)
        | (simp only [hcl, writtenOf]; assumption)
    · simp at hs
  | writing line =>
    simp only [hcl] at hs
    obtain ⟨L, hL⟩ := d8 line hcl
    simp only [hcl, writtenOf, hL, List.dropLast_concat] at d9 d10
    have hfile : s.file = FileState.opened := by
      have h5 := hc.collSpawn
      have h9 := hc.collDone
      have h14 := hc.fileSt
      simp only [hcl, reduceCtorEq, false_iff, imp_false] at h5 h9
      rw [h14]
      unfold fileAt
      rw [if_neg (by omega), if_pos (by omega)]
    split at hs
    · rename_i hok
      simp only [Option.some.injEq] at hs
      subst hs
      constructor <;> dsimp only
      · exact d1
      · exact d2
      · exact d3
      · exact d4
      · exact d5
      · exact d6
      · intro hx; simp at hx
      · intro l hx; simp at hx
      · simp only [writtenOf, hL, List.length_append, List.length_singleton, d9]
      · simp only [writtenOf, hL, persisted_append, ← d9, hok.2, if_true, d10]
      · rw [failures_succ, hok.2, d11]; simp
    · rename_i hok
      have hfail : cfg.writeOK s.writes = false := by
        cases hw : cfg.writeOK s.writes
        · rfl
        · exact absurd ⟨hfile, hw⟩ hok
      simp only [Option.some.injEq] at hs
      subst hs
      constructor <;> dsimp only
      · exact d1
      · exact d2
      · exact d3
      · exact d4
      · exact d5
      · exact d6
      · intro hx; simp at hx
      · intro l hx; simp at hx
      · simp only [writtenOf, hL, List.length_append, List.length_singleton, d9]
      · simp only [writtenOf, hL, persisted_append, ← d9, hfail, Bool.false_eq_true, if_false,
          d10, failedWrite, hfile, if_true]
      · rw [failures_succ, hfail, ← d11]
        simp [List.count_append]

theorem step_data {cfg : Config} {a : Action} {s s' : State} (hc : Ctl cfg s) (h : Data cfg s)
    (hs : step cfg a s = some s') : Data cfg s' := by
  unfold step at hs
  split at hs
  · simp at hs
  · cases a with
    | main => exact mainStep_data hc h hs
    | worker k => exact workerStep_data h hs
    | producer => exact producerStep_data hc h hs
    | collector => exact collectorStep_data hc h hs
    | sendTask k => exact sendTask_data hc h hs
    | sendResult k => exact sendResult_data h hs

theorem reachable_inv {cfg : Config} {s : State} (h : Reachable cfg s) :
    Ctl cfg s ∧ Data cfg s := by
  obtain ⟨as, hr⟩ := h
  exact run_induction (fun s => Ctl cfg s ∧ Data cfg s)
    (fun _ _ _ hp hs => ⟨step_ctl hp.1 hs, step_data hp.1 hp.2 hs⟩) as init s
    ⟨init_ctl cfg, init_data cfg⟩ hr


/-! ## Lines: rendering is injective, and the sink splits back into its lines -/

/-- Characters that `%d` can print. -/
theorem intRepr_chars (n : Int) : ∀ c ∈ (fmtInt n).data, c.isDigit = true ∨ c = '-' := by
  cases n with
  | ofNat m => exact fun c hc => Or.inl (natRepr_digits m c hc)
  | negSucc m =>
    intro c hc
    have : (fmtInt (Int.negSucc m)).data = '-' :: (Nat.repr (m + 1)).data := rfl
    rw [this] at hc
    rcases List.mem_cons.1 hc with rfl | hc
    · exact Or.inr rfl
    · exact Or.inl (natRepr_digits _ c hc)

theorem fmtInt_injective : Function.Injective fmtInt := by
  intro a b h
  have hd : (fmtInt a).data = (fmtInt b).data := by rw [h]
  cases a with
  | ofNat m =>
    cases b with
    | ofNat n => exact congrArg Int.ofNat (natRepr_injective h)
    | negSucc n =>
      exfalso
      have e : (fmtInt (Int.negSucc n)).data = '-' :: (Nat.repr (n + 1)).data := rfl
      have hm : '-' ∈ (fmtInt (Int.ofNat m)).data := by rw [hd, e]; exact List.mem_cons_self _ _
      have := natRepr_digits m '-' hm
      exact absurd this (by decide)
  | negSucc m =>
    cases b with
    | ofNat n =>
      exfalso
      have e : (fmtInt (Int.negSucc m)).data = '-' :: (Nat.repr (m + 1)).data := rfl
      have hm : '-' ∈ (fmtInt (Int.ofNat n)).data := by rw [← hd, e]; exact List.mem_cons_self _ _
      have := natRepr_digits n '-' hm
      exact absurd this (by decide)
    | negSucc n =>
      have e1 : (fmtInt (Int.negSucc m)).data = '-' :: (Nat.repr (m + 1)).data := rfl
      have e2 : (fmtInt (Int.negSucc n)).data = '-' :: (Nat.repr (n + 1)).data := rfl
      rw [e1, e2] at hd
      have h' : Nat.repr (m + 1) = Nat.repr (n + 1) := String.ext (List.cons.inj hd).2
      have := natRepr_injective h'
      have hmn : m = n := by omega
      rw [hmn]

/-- Two texts that start with a run of characters of a class, followed by a character outside
the class, agree only if the runs agree. -/
theorem run_sep_inj (p : Char → Prop) : ∀ (a b : List Char) (x y : Char) (r r' : List Char),
    (∀ c ∈ a, p c) → (∀ c ∈ b, p c) → ¬ p x → ¬ p y →
    a ++ x :: r = b ++ y :: r' → a = b ∧ r = r' := by
  intro a
  induction a with
  | nil =>
    intro b x y r r' _ hb hx _ h
    cases b with
    | nil => simp only [List.nil_append, List.cons.injEq] at h; exact ⟨rfl, h.2⟩
    | cons c b =>
      simp only [List.nil_append, List.cons_append, List.cons.injEq] at h
      exact absurd (h.1 ▸ hb c (List.mem_cons_self _ _)) hx
  | cons c a ih =>
    intro b x y r r' ha hb hx hy h
    cases b with
    | nil =>
      simp only [List.nil_append, List.cons_append, List.cons.injEq] at h
      exact absurd (h.1 ▸ ha c (List.mem_cons_self _ _)) hy
    | cons d b =>
      simp only [List.cons_append, List.cons.injEq] at h
      obtain ⟨h1, h2⟩ := ih b x y r r' (fun c hc => ha c (List.mem_cons_of_mem _ hc))
        (fun c hc => hb c (List.mem_cons_of_mem _ hc)) hx hy h.2
      exact ⟨by rw [h.1, h1], h2⟩

theorem outputLine_data (w : Int) (i : Nat) :
    (outputLine w i).data = "Worker ".data ++ ((fmtInt w).data ++ (':' :: (" Task ".data ++
      ((fmtInt (i : Int)).data ++ (' ' :: ("processed => PAYLOAD-".data ++
        (fmtInt (i : Int)).data)))))) := by
  simp [outputLine, String.data_append, List.append_assoc]

/-- The output line determines the worker id and the task id. -/
theorem outputLine_injective {w w' : Int} {i i' : Nat} (h : outputLine w i = outputLine w' i') :
    w = w' ∧ i = i' := by
  have hd : (outputLine w i).data = (outputLine w' i').data := by rw [h]
  rw [outputLine_data, outputLine_data] at hd
  have h1 := List.append_cancel_left hd
  have hcls : ∀ n : Int, ∀ c ∈ (fmtInt n).data, c.isDigit = true ∨ c = '-' := intRepr_chars
  obtain ⟨hw, h2⟩ := run_sep_inj (fun c => c.isDigit = true ∨ c = '-') _ _ _ _ _ _
    (hcls w) (hcls w') (by decide) (by decide) h1
  have h3 := List.append_cancel_left h2
  obtain ⟨hi, _⟩ := run_sep_inj (fun c => c.isDigit = true ∨ c = '-') _ _ _ _ _ _
    (hcls i) (hcls i') (by decide) (by decide) h3
  have hw' : w = w' := fmtInt_injective (String.ext hw)
  have hi' : (i : Int) = (i' : Int) := fmtInt_injective (String.ext hi)
  exact ⟨hw', by exact_mod_cast hi'⟩

theorem outputLine_no_newline (w : Int) (i : Nat) : '\n' ∉ (outputLine w i).data := by
  rw [outputLine_data]
  have hcls : ∀ n : Int, '\n' ∉ (fmtInt n).data := by
    intro n hn
    rcases intRepr_chars n _ hn with h | h
    · exact absurd h (by decide)
    · exact absurd h (by decide)
  simp only [List.mem_append, List.mem_cons, not_or]
  refine ⟨by decide, hcls w, by decide, by decide, hcls _, by decide, by decide, hcls _⟩

theorem splitLines_line : ∀ (l cur rest : List Char), '\n' ∉ l →
    splitLines cur (l ++ '\n' :: rest) = String.mk (cur.reverse ++ l) :: splitLines [] rest := by
  intro l
  induction l with
  | nil => intro cur rest _; simp [splitLines]
  | cons c l ih =>
    intro cur rest h
    have hc : c ≠ '\n' := fun e => h (e ▸ List.mem_cons_self _ _)
    have hl : '\n' ∉ l := fun e => h (List.mem_cons_of_mem _ e)
    simp only [List.cons_append, splitLines, hc, if_false, List.append_eq]
    rw [ih (c :: cur) rest hl]
    simp

theorem concatLines_cons (l : String) (L : List String) :
    concatLines (l :: L) = l ++ "\n" ++ concatLines L := rfl

theorem concatLines_append (A : List String) (l : String) :
    concatLines (A ++ [l]) = concatLines A ++ (l ++ "\n") := by
  induction A with
  | nil =>
    apply String.ext
    simp [concatLines]
  | cons a A ih =>
    rw [List.cons_append, concatLines_cons, concatLines_cons, ih]
    apply String.ext
    simp [String.data_append, List.append_assoc]

/-- A file that consists of newline-free lines, each followed by a newline, splits back into
these lines. -/
theorem fileLines_concatLines : ∀ (L : List String), (∀ l ∈ L, '\n' ∉ l.data) →
    fileLines (concatLines L) = L := by
  intro L
  induction L with
  | nil => intro _; rfl
  | cons l L ih =>
    intro h
    have h1 := h l (List.mem_cons_self _ _)
    have h2 := ih fun x hx => h x (List.mem_cons_of_mem _ hx)
    unfold fileLines at h2 ⊢
    have e : (concatLines (l :: L)).data = l.data ++ '\n' :: (concatLines L).data := by
      rw [concatLines_cons]
      simp [String.data_append, List.append_assoc]
    rw [e, splitLines_line l.data [] _ h1, h2]
    simp


/-! ## What the channels carry -/

theorem mkTask_injective : Function.Injective mkTask := by
  intro i j h
  have : (mkTask i).ID = (mkTask j).ID := by rw [h]
  simpa [mkTask] using this

theorem produced_mkTask (U : Char → Char) (w : Int) (i : Nat) :
    produced U w (mkTask i) = if i % 7 = 0 then [] else [(w, outputLine w i)] := by
  unfold produced
  by_cases h7 : i % 7 = 0
  · rw [processTask_mkTask, if_pos h7, if_pos h7]
  · have := resultLine_mkTask U w i h7
    rw [processTask_mkTask, if_neg h7] at this ⊢
    rw [if_neg h7]
    simpa using this

theorem xfer_mem_of_mem_xfers {α : Type} {tr : List (ChanEv α)} {w : Int} {v : α}
    (h : (w, v) ∈ xfers tr) : ChanEv.xfer w v ∈ tr := by
  unfold xfers at h
  obtain ⟨e, he, hx⟩ := List.mem_filterMap.1 h
  cases e with
  | close => simp [ChanEv.toXfer] at hx
  | xfer w' v' =>
    simp only [ChanEv.toXfer, Option.some.injEq, Prod.mk.injEq] at hx
    rw [← hx.1, ← hx.2]
    exact he

/-- The lines that a sequence of hand-overs of the tasks `a, a+1, ...` leads to. -/
theorem expected_spec (U : Char → Char) (T : List (Int × Task)) (a m : Nat)
    (hT : T.map Prod.snd = (List.range' a m).map mkTask) :
    ((expected U T).map Prod.snd).Nodup ∧
    (∀ x, x ∈ expected U T ↔
      ∃ (w : Int) (i : Nat), (w, mkTask i) ∈ T ∧ i % 7 ≠ 0 ∧ x = (w, outputLine w i)) ∧
    (∀ w i, (w, mkTask i) ∈ T → a ≤ i ∧ i < a + m) ∧
    (∀ w w' i, (w, mkTask i) ∈ T → (w', mkTask i) ∈ T → w = w') := by
  have hnd : (T.map Prod.snd).Nodup := by
    rw [hT]
    exact List.Nodup.map mkTask_injective (List.nodup_range' a m)
  have hfun : ∀ w w' i, (w, mkTask i) ∈ T → (w', mkTask i) ∈ T → w = w' := by
    intro w w' i h1 h2
    have := List.inj_on_of_nodup_map hnd h1 h2 rfl
    exact (Prod.mk.inj this).1
  have hrng : ∀ w i, (w, mkTask i) ∈ T → a ≤ i ∧ i < a + m := by
    intro w i h
    have h1 : mkTask i ∈ T.map Prod.snd := List.mem_map.2 ⟨(w, mkTask i), h, rfl⟩
    rw [hT] at h1
    obtain ⟨j, hj, hji⟩ := List.mem_map.1 h1
    have := mkTask_injective hji
    subst this
    have := List.mem_range'_1.1 hj
    omega
  have hshape : ∀ p ∈ T, ∃ i, p.2 = mkTask i := by
    intro p hp
    have h1 : p.2 ∈ T.map Prod.snd := List.mem_map.2 ⟨p, hp, rfl⟩
    rw [hT] at h1
    obtain ⟨j, _, hji⟩ := List.mem_map.1 h1
    exact ⟨j, hji.symm⟩
  have hmem : ∀ x, x ∈ expected U T ↔
      ∃ (w : Int) (i : Nat), (w, mkTask i) ∈ T ∧ i % 7 ≠ 0 ∧ x = (w, outputLine w i) := by
    intro x
    unfold expected
    rw [List.mem_flatMap]
    constructor
    · rintro ⟨p, hp, hx⟩
      obtain ⟨i, hi⟩ := hshape p hp
      rw [hi, produced_mkTask] at hx
      by_cases h7 : i % 7 = 0
      · simp [h7] at hx
      · simp only [h7, if_false, List.mem_singleton] at hx
        exact ⟨p.1, i, by rw [← hi]; exact hp, h7, hx⟩
    · rintro ⟨w, i, hp, h7, rfl⟩
      refine ⟨(w, mkTask i), hp, ?_⟩
      simp [produced_mkTask, h7]
  refine ⟨?_, hmem, hrng, hfun⟩
  -- no line occurs twice
  clear hmem hrng hfun hshape hnd
  induction T generalizing a m with
  | nil => simp [expected]
  | cons p T ih =>
    cases m with
    | zero => simp at hT
    | succ m =>
      simp only [List.map_cons, List.range'_succ, List.cons.injEq] at hT
      obtain ⟨hp, hT'⟩ := hT
      have ih' := ih (a + 1) m hT'
      have hsplit : expected U (p :: T) = produced U p.1 p.2 ++ expected U T := by
        simp [expected]
      rw [hsplit, hp, produced_mkTask]
      by_cases h7 : a % 7 = 0
      · simpa [h7] using ih'
      · simp only [h7, if_false, List.singleton_append, List.map_cons, List.nodup_cons]
        refine ⟨?_, ih'⟩
        intro hin
        obtain ⟨x, hx, hxe⟩ := List.mem_map.1 hin
        unfold expected at hx
        obtain ⟨q, hq, hxq⟩ := List.mem_flatMap.1 hx
        have h1 : q.2 ∈ T.map Prod.snd := List.mem_map.2 ⟨q, hq, rfl⟩
        rw [hT'] at h1
        obtain ⟨j, hj, hji⟩ := List.mem_map.1 h1
        rw [← hji, produced_mkTask] at hxq
        by_cases h7j : j % 7 = 0
        · simp [h7j] at hxq
        · simp only [h7j, if_false, List.mem_singleton] at hxq
          rw [hxq] at hxe
          have := (outputLine_injective hxe).2
          have := List.mem_range'_1.1 hj
          omega

theorem count_non_multiples (m : Nat) :
    ((List.range' 1 m).filter fun i => decide (i % 7 ≠ 0)).length = m - m / 7 := by
  induction m with
  | zero => rfl
  | succ m ih =>
    rw [List.range'_concat, List.filter_append, List.length_append, ih]
    by_cases h : (1 + 1 * m) % 7 = 0
    · simp only [List.filter_cons, h, ne_eq, not_true_eq_false, decide_False]
      simp only [Bool.false_eq_true, if_false, List.filter_nil, List.length_nil]
      omega
    · simp only [List.filter_cons, h, ne_eq, not_false_eq_true, decide_True, if_true,
        List.filter_nil, List.length_singleton]
      omega

theorem expected_length (U : Char → Char) : ∀ (T : List (Int × Task)) (a m : Nat),
    T.map Prod.snd = (List.range' a m).map mkTask →
    (expected U T).length = ((List.range' a m).filter fun i => decide (i % 7 ≠ 0)).length := by
  intro T
  induction T with
  | nil =>
    intro a m hT
    cases m with
    | zero => simp [expected]
    | succ m => simp [List.range'_succ] at hT
  | cons p T ih =>
    intro a m hT
    cases m with
    | zero => simp at hT
    | succ m =>
      simp only [List.map_cons, List.range'_succ, List.cons.injEq] at hT
      obtain ⟨hp, hT'⟩ := hT
      have hsplit : expected U (p :: T) = produced U p.1 p.2 ++ expected U T := by
        simp [expected]
      rw [hsplit, hp, produced_mkTask, List.length_append, ih (a + 1) m hT', List.range'_succ,
        List.filter_cons]
      by_cases h7 : a % 7 = 0 <;> simp [h7]
      omega


/-! ## What the sink holds -/

theorem persisted_all_ok (ok : Nat → Bool) (part : Nat → Nat) (h : ∀ k, ok k = true)
    (L : List String) : persisted ok part L = concatLines L := by
  induction L using List.reverseRecOn with
  | nil => rfl
  | append_singleton L l ih => rw [persisted_append, h, if_pos rfl, ih, concatLines_append]

/-- When every write fails, the file holds no newline: the fragments are cut out of lines
that have none. -/
theorem persisted_no_newline (ok : Nat → Bool) (part : Nat → Nat) (h : ∀ k, ok k = false)
    (L : List String) (hL : ∀ l ∈ L, '\n' ∉ l.data) : '\n' ∉ (persisted ok part L).data := by
  induction L using List.reverseRecOn with
  | nil => intro hm; cases hm
  | append_singleton L l ih =>
    rw [persisted_append, h]
    simp only [Bool.false_eq_true, if_false, String.data_append, List.mem_append, not_or]
    refine ⟨ih fun x hx => hL x (List.mem_append_left _ hx), fun hm => ?_⟩
    exact hL l (List.mem_append_right _ (List.mem_singleton_self l)) (List.mem_of_mem_take hm)

theorem persisted_nothing (ok : Nat → Bool) (part : Nat → Nat) (h : ∀ k, ok k = false)
    (hp : ∀ k, part k = 0) (L : List String) : persisted ok part L = "" := by
  induction L using List.reverseRecOn with
  | nil => rfl
  | append_singleton L l ih =>
    rw [persisted_append, h, ih, hp]
    rfl

theorem completeLinesFrom_no_newline : ∀ (l cur : List Char), '\n' ∉ l →
    completeLinesFrom cur l = [] := by
  intro l
  induction l with
  | nil => intro cur _; rfl
  | cons c l ih =>
    intro cur h
    have hc : c ≠ '\n' := fun e => h (e ▸ List.mem_cons_self _ _)
    have hl : '\n' ∉ l := fun e => h (List.mem_cons_of_mem _ e)
    simp only [completeLinesFrom, hc, if_false]
    exact ih (c :: cur) hl

theorem failures_all (ok : Nat → Bool) (h : ∀ k, ok k = false) (n : Nat) : failures ok n = n := by
  induction n with
  | zero => rfl
  | succ n ih => rw [failures_succ, ih, h]; rfl

theorem writtenOf_sublist (c : CollectorPC) (L : List String) : (writtenOf c L).Sublist L := by
  cases c <;> simp [writtenOf, List.dropLast_sublist]

theorem sentCount_le {cfg : Config} {s : State} (hc : Ctl cfg s) :
    s.producer.sentCount cfg.numTasks ≤ cfg.numTasks := by
  cases hp : s.producer with
  | unspawned => simp [ProducerPC.sentCount]
  | finished => simp [ProducerPC.sentCount]
  | loop i =>
    have := hc.loopBound i hp
    simp only [ProducerPC.sentCount]
    omega

/-- The lines the collector has received in a reachable state: none occurs twice, each is the
output line of a worker for a task that this worker took from the task channel, and a task
has lines of one worker only. -/
theorem received_facts {cfg : Config} {s : State} (h : Reachable cfg s) :
    (received s.results.trace).Nodup ∧
    (∀ l ∈ received s.results.trace, ∃ (w : Int) (i : Nat),
      1 ≤ w ∧ w ≤ (cfg.numWorkers : Int) ∧ 1 ≤ i ∧ i ≤ cfg.numTasks ∧ i % 7 ≠ 0 ∧
      ChanEv.xfer w (mkTask i) ∈ s.tasks.trace ∧ l = outputLine w i) ∧
    (∀ (w w' : Int) (i : Nat), outputLine w i ∈ received s.results.trace →
      outputLine w' i ∈ received s.results.trace → w = w') := by
  obtain ⟨hc, hd⟩ := reachable_inv h
  obtain ⟨hnd, hmem, hrng, hfun⟩ :=
    expected_spec cfg.unicodeUpper (xfers s.tasks.trace) 1 _ hd.sentTasks
  have hle := sentCount_le hc
  have hsub : ∀ x ∈ xfers s.results.trace,
      x ∈ expected cfg.unicodeUpper (xfers s.tasks.trace) :=
    fun x hx => hd.conserve.subset (List.mem_append_left _ hx)
  have hform : ∀ l ∈ received s.results.trace, ∃ (w : Int) (i : Nat),
      (w, mkTask i) ∈ xfers s.tasks.trace ∧ i % 7 ≠ 0 ∧ l = outputLine w i := by
    intro l hl
    obtain ⟨x, hx, hxl⟩ := List.mem_map.1 hl
    obtain ⟨w, i, hT, h7, hxe⟩ := (hmem x).1 (hsub x hx)
    exact ⟨w, i, hT, h7, by rw [← hxl, hxe]⟩
  refine ⟨?_, ?_, ?_⟩
  · have h1 : ((xfers s.results.trace ++ inflight cfg.unicodeUpper s.workers).map
        Prod.snd).Nodup := (hd.conserve.map Prod.snd).nodup_iff.2 hnd
    rw [List.map_append] at h1
    exact h1.of_append_left
  · intro l hl
    obtain ⟨w, i, hT, h7, hle'⟩ := hform l hl
    have hb := hd.receivers (w, mkTask i) hT
    have hr := hrng w i hT
    exact ⟨w, i, hb.1, hb.2, hr.1, by omega, h7, xfer_mem_of_mem_xfers hT, hle'⟩
  · intro w w' i h1 h2
    obtain ⟨w1, i1, hT1, _, he1⟩ := hform _ h1
    obtain ⟨w2, i2, hT2, _, he2⟩ := hform _ h2
    obtain ⟨e1, e1'⟩ := outputLine_injective he1
    obtain ⟨e2, e2'⟩ := outputLine_injective he2
    subst e1 e1' e2
    subst e2'
    exact hfun _ _ _ hT1 hT2

/-- The sink of a reachable state when every write succeeds: the received lines whose write
has been attempted, each followed by a newline, in arrival order. -/
theorem sink_facts {cfg : Config} {s : State} (hw : ∀ k, cfg.writeOK k = true)
    (h : Reachable cfg s) :
    s.sink = concatLines (writtenOf s.collector (received s.results.trace)) ∧
    fileLines s.sink = writtenOf s.collector (received s.results.trace) ∧
    (fileLines s.sink).Sublist (received s.results.trace) := by
  obtain ⟨_, hd⟩ := reachable_inv h
  obtain ⟨_, hform, _⟩ := received_facts h
  have hsub := writtenOf_sublist s.collector (received s.results.trace)
  have hs : s.sink = concatLines (writtenOf s.collector (received s.results.trace)) := by
    rw [hd.sinkOK, persisted_all_ok _ _ hw]
  have hl : fileLines s.sink = writtenOf s.collector (received s.results.trace) := by
    rw [hs]
    apply fileLines_concatLines
    intro l hl
    obtain ⟨w, i, _, _, _, _, _, _, he⟩ := hform l (hsub.subset hl)
    rw [he]
    exact outputLine_no_newline w i
  exact ⟨hs, hl, hl ▸ hsub⟩

/-- The state in which `main` has returned, for a pool of at least one worker: every
goroutine has ended, both channels are closed, the file is closed, every task has been handed
to a worker, and the collector has received exactly the lines these tasks lead to. -/
theorem done_facts {cfg : Config} {s : State} (hN : 1 ≤ cfg.numWorkers) (h : Reachable cfg s)
    (hdone : s.main = MainPC.done) :
    s.panicked = false ∧ s.collector = CollectorPC.finished ∧
    s.producer = ProducerPC.finished ∧ (∀ w ∈ s.workers, w.pc = WorkerPC.exited) ∧
    s.workers.length = cfg.numWorkers ∧ s.tasks.closed = true ∧ s.results.closed = true ∧
    s.file = FileState.closed ∧ cfg.createOK = true ∧
    (xfers s.tasks.trace).map Prod.snd = (List.range' 1 cfg.numTasks).map mkTask ∧
    (xfers s.results.trace).Perm (expected cfg.unicodeUpper (xfers s.tasks.trace)) ∧
    s.writes = (received s.results.trace).length ∧
    s.sink = persisted cfg.writeOK cfg.partialWrite (received s.results.trace) ∧
    s.log.count LogMsg.writeError = failures cfg.writeOK (received s.results.trace).length := by
  obtain ⟨hc, hd⟩ := reachable_inv h
  have hcoll : s.collector = CollectorPC.finished := hc.collDone (by simp [hdone, MainPC.phase])
  have hwg : s.wg = 0 := hc.joined (by simp [hdone, MainPC.phase])
  have hex := all_exited_of_liveCount s.workers (by rw [← hc.wgLive]; exact hwg)
  have hlen : s.workers.length = cfg.numWorkers := by
    have := hc.spawned
    simpa [hdone, spawnedOK] using this
  have hclosed : s.tasks.closed = true := by
    cases hws : s.workers with
    | nil => rw [hws] at hlen; simp at hlen; omega
    | cons w ws =>
      have hw : w ∈ s.workers := by rw [hws]; exact List.mem_cons_self _ _
      exact hc.exitedClosed w hw (hex w hw)
  have hprod : s.producer = ProducerPC.finished := hc.taskClosed.1 hclosed
  have hinf : inflight cfg.unicodeUpper s.workers = [] := by
    unfold inflight
    rw [List.flatMap_eq_nil_iff]
    intro w hw
    simp [Worker.pending, hex w hw]
  have hperm := hd.conserve
  rw [hinf, List.append_nil] at hperm
  have hsent := hd.sentTasks
  rw [hprod] at hsent
  have hwc := hd.writeCount
  have hsk := hd.sinkOK
  have hlog := hd.errLog
  rw [hcoll] at hwc hsk
  simp only [writtenOf] at hwc hsk
  rw [hwc] at hlog
  refine ⟨hc.noPanic, hcoll, hprod, hex, hlen, hclosed, ?_, ?_, ?_, hsent, hperm, hwc, hsk, hlog⟩
  · exact hc.resClosed.2 (by simp [hdone, MainPC.phase])
  · rw [hc.fileSt]; simp [hdone, MainPC.phase, fileAt]
  · exact hc.created (by simp [hdone, MainPC.phase])

/-- After a full run every task that is not a multiple of 7 has its line among the received
lines, and the number of received lines is `numTasks - numTasks / 7`. -/
theorem done_lines {cfg : Config} {s : State} (hN : 1 ≤ cfg.numWorkers) (h : Reachable cfg s)
    (hdone : s.main = MainPC.done) :
    (∀ i, 1 ≤ i → i ≤ cfg.numTasks → i % 7 ≠ 0 →
      ∃ w : Int, 1 ≤ w ∧ w ≤ (cfg.numWorkers : Int) ∧
        outputLine w i ∈ received s.results.trace) ∧
    (received s.results.trace).length = cfg.numTasks - cfg.numTasks / 7 := by
  obtain ⟨_, hd⟩ := reachable_inv h
  obtain ⟨_, _, _, _, _, _, _, _, _, hsent, hperm, _, _, _⟩ := done_facts hN h hdone
  obtain ⟨_, hmem, _, _⟩ :=
    expected_spec cfg.unicodeUpper (xfers s.tasks.trace) 1 _ hsent
  constructor
  · intro i h1 h2 h7
    have hin : mkTask i ∈ (xfers s.tasks.trace).map Prod.snd := by
      rw [hsent]
      exact List.mem_map.2 ⟨i, List.mem_range'_1.2 ⟨h1, by omega⟩, rfl⟩
    obtain ⟨p, hp, hpe⟩ := List.mem_map.1 hin
    have hp' : (p.1, mkTask i) ∈ xfers s.tasks.trace := by rw [← hpe]; exact hp
    have hb := hd.receivers _ hp'
    refine ⟨p.1, hb.1, hb.2, ?_⟩
    have hx : (p.1, outputLine p.1 i) ∈ xfers s.results.trace :=
      hperm.mem_iff.2 ((hmem _).2 ⟨p.1, i, hp', h7, rfl⟩)
    exact List.mem_map.2 ⟨_, hx, rfl⟩
  · unfold received
    rw [List.length_map, hperm.length_eq,
      expected_length cfg.unicodeUpper _ 1 cfg.numTasks hsent, count_non_multiples]


/-! ## Every execution can be completed -/

theorem isSome_step {cfg : Config} {s : State} (h : Ctl cfg s) (hh : s.halted = false) :
    ∃ a s', step cfg a s = some s' := by
  obtain ⟨a, ha⟩ := progress h hh
  cases hs : step cfg a s with
  | none => rw [hs] at ha; simp at ha
  | some s' => exact ⟨a, s', hs⟩

theorem exists_run_to_halt {cfg : Config} : ∀ (n : Nat) (s : State), workLeft cfg s ≤ n →
    Ctl cfg s → ∃ bs s', run cfg bs s = some s' ∧ s'.halted = true := by
  intro n
  induction n with
  | zero =>
    intro s hn hc
    cases hh : s.halted with
    | true => exact ⟨[], s, rfl, hh⟩
    | false =>
      obtain ⟨a, s1, hs⟩ := isSome_step hc hh
      have := step_decreases hs
      omega
  | succ n ih =>
    intro s hn hc
    cases hh : s.halted with
    | true => exact ⟨[], s, rfl, hh⟩
    | false =>
      obtain ⟨a, s1, hs⟩ := isSome_step hc hh
      have hlt := step_decreases hs
      obtain ⟨bs, s', hr, hh'⟩ := ih s1 (by omega) (step_ctl hc hs)
      exact ⟨a :: bs, s', by simp [run, hs, hr], hh'⟩

theorem run_append (cfg : Config) : ∀ (as bs : List Action) (s : State),
    run cfg (as ++ bs) s = (run cfg as s).bind (run cfg bs) := by
  intro as
  induction as with
  | nil => intro bs s; rfl
  | cons a as ih =>
    intro bs s
    simp only [List.cons_append, run]
    cases step cfg a s with
    | none => rfl
    | some s1 => simp only [Option.some_bind]; exact ih bs s1

theorem reachable_run {cfg : Config} {s s' : State} {bs : List Action} (h : Reachable cfg s)
    (hr : run cfg bs s = some s') : Reachable cfg s' := by
  obtain ⟨as, has⟩ := h
  exact ⟨as ++ bs, by rw [run_append, has]; exact hr⟩

/-- From a reachable state the process can always run on until it ends, and it ends without
a panic: with `main` returned when the sink can be created, with `log.Fatalf` otherwise. -/
theorem exists_run_to_end {cfg : Config} {s : State} (h : Reachable cfg s) :
    ∃ bs s', run cfg bs s = some s' ∧ s'.panicked = false ∧
      (cfg.createOK = true → s'.main = MainPC.done) ∧
      (cfg.createOK = false → s'.main = MainPC.aborted) := by
  obtain ⟨bs, s', hr, hh⟩ := exists_run_to_halt (workLeft cfg s) s (Nat.le_refl _) (reachable_ctl h)
  have hc := reachable_ctl (reachable_run h hr)
  refine ⟨bs, s', hr, hc.noPanic, ?_, ?_⟩
  · intro hcr
    cases hm : s'.main <;> simp [State.halted, MainPC.halted, hm, hc.noPanic] at hh
    · rfl
    · have := hc.abort hm
      rw [hcr] at this
      exact absurd this (by decide)
  · intro hcr
    cases hm : s'.main <;> simp [State.halted, MainPC.halted, hm, hc.noPanic] at hh
    · have := hc.created (by simp [hm, MainPC.phase])
      rw [hcr] at this
      exact absurd this (by decide)
    · rfl

theorem not_halted_of_not_done {cfg : Config} {s : State} (hc : Ctl cfg s)
    (hcr : cfg.createOK = true) (hd : s.main ≠ MainPC.done) : s.halted = false := by
  have hp := hc.noPanic
  cases hm : s.main with
  | done => exact absurd hm hd
  | aborted =>
    have := hc.abort hm
    rw [hcr] at this
    exact absurd this (by decide)
  | _ => simp [State.halted, MainPC.halted, hp, hm]

theorem workLeft_init (cfg : Config) :
    workLeft cfg init = 3 * cfg.numWorkers + 5 * cfg.numTasks + 14 := by
  simp [workLeft, init, State.halted, MainPC.halted, MainPC.weight, ProducerPC.weight,
    CollectorPC.weight, poolWeight]

theorem count_close_le_one {α : Type} [DecidableEq α] {c : Chan α} (h : c.wellFormed) :
    c.trace.count ChanEv.close = if c.closed then 1 else 0 := by
  unfold Chan.wellFormed at h
  rw [h, List.count_append]
  have h0 : ((xfers c.trace).map fun p => ChanEv.xfer p.1 p.2).count ChanEv.close = 0 := by
    rw [List.count_eq_zero]
    intro hm
    obtain ⟨p, _, hp⟩ := List.mem_map.1 hm
    cases hp
  rw [h0]
  cases c.closed <;> simp

theorem payload_injective {i j : Nat} (h : (mkTask i).Payload = (mkTask j).Payload) : i = j := by
  have hd : (mkTask i).Payload.data = (mkTask j).Payload.data := by rw [h]
  simp only [mkTask, fmtInt_natCast, String.data_append] at hd
  exact natRepr_injective (String.ext (List.append_cancel_left hd))


theorem reachable_init (cfg : Config) : Reachable cfg init := ⟨[], rfl⟩

theorem fileLines_done {cfg : Config} {s : State} (hw : ∀ k, cfg.writeOK k = true)
    (hN : 1 ≤ cfg.numWorkers) (hr : Reachable cfg s) (hd : s.main = MainPC.done) :
    fileLines s.sink = received s.results.trace := by
  obtain ⟨_, hl, _⟩ := sink_facts hw hr
  obtain ⟨_, hcoll, _⟩ := done_facts hN hr hd
  rw [hl, hcoll]
  rfl

/-! ## The claims about the pipeline -/

/-- C1. For every numWorkers >= 1 and numTasks >= 0 and every interleaving, with a sink whose
writes succeed: at any moment every line of the sink is the output line of a worker for a
task id in 1..numTasks that is not a multiple of 7, no line occurs twice, a task has lines of
one worker only, and a multiple of 7 has no line; after the full run (main has returned)
every task id in 1..numTasks that is not a multiple of 7 has exactly one line in the sink. -/
theorem sink_has_exactly_one_line_per_good_task (cfg : Config) (hN : 1 ≤ cfg.numWorkers)
    (hw : ∀ k, cfg.writeOK k = true) (s : State) (hr : Reachable cfg s) :
    ((∀ l ∈ fileLines s.sink, ∃ (w : Int) (i : Nat),
        1 ≤ w ∧ w ≤ (cfg.numWorkers : Int) ∧ 1 ≤ i ∧ i ≤ cfg.numTasks ∧ i % 7 ≠ 0 ∧
        l = outputLine w i) ∧
      (∀ (w : Int) (i : Nat), (fileLines s.sink).count (outputLine w i) ≤ 1) ∧
      (∀ (w w' : Int) (i : Nat), outputLine w i ∈ fileLines s.sink →
        outputLine w' i ∈ fileLines s.sink → w = w') ∧
      (∀ (w : Int) (i : Nat), i % 7 = 0 → outputLine w i ∉ fileLines s.sink)) ∧
    (s.main = MainPC.done →
      ∀ i, 1 ≤ i → i ≤ cfg.numTasks → i % 7 ≠ 0 →
        ∃ w : Int, 1 ≤ w ∧ w ≤ (cfg.numWorkers : Int) ∧
          (fileLines s.sink).count (outputLine w i) = 1 ∧
          ∀ w' : Int, outputLine w' i ∈ fileLines s.sink → w' = w) := by
  obtain ⟨hnd, hform, hfun⟩ := received_facts hr
  obtain ⟨_, _, hsub⟩ := sink_facts hw hr
  have hnd' : (fileLines s.sink).Nodup := hnd.sublist hsub
  have huniq : ∀ (w w' : Int) (i : Nat), outputLine w i ∈ fileLines s.sink →
      outputLine w' i ∈ fileLines s.sink → w = w' :=
    fun w w' i h1 h2 => hfun w w' i (hsub.subset h1) (hsub.subset h2)
  refine ⟨⟨?_, ?_, huniq, ?_⟩, ?_⟩
  · intro l hl
    obtain ⟨w, i, h1, h2, h3, h4, h5, _, h6⟩ := hform l (hsub.subset hl)
    exact ⟨w, i, h1, h2, h3, h4, h5, h6⟩
  · intro w i
    exact List.nodup_iff_count_le_one.1 hnd' _
  · intro w i h7 hin
    obtain ⟨w0, i0, _, _, _, _, h5, _, h6⟩ := hform _ (hsub.subset hin)
    have := (outputLine_injective h6).2
    subst this
    exact h5 h7
  · intro hd i h1 h2 h7
    obtain ⟨hex, _⟩ := done_lines hN hr hd
    obtain ⟨w, hw1, hw2, hin⟩ := hex i h1 h2 h7
    have hfl := fileLines_done hw hN hr hd
    rw [← hfl] at hin
    exact ⟨w, hw1, hw2, List.count_eq_one_of_mem hnd' hin, fun w' hw' => huniq w' w i hw' hin⟩

/-- C1, on the complete run of one worker and one task: the sink holds the line of task 1
once. -/
theorem sink_has_exactly_one_line_per_good_task_witness :
    Reachable cfgSmall smallFinal ∧ smallFinal.main = MainPC.done ∧
      (fileLines smallFinal.sink).count (outputLine 1 1) = 1 := by
  have hr : Reachable cfgSmall smallFinal := ⟨smallSchedule, rfl⟩
  have h := (sink_has_exactly_one_line_per_good_task cfgSmall (by decide) (fun _ => rfl)
    smallFinal hr).2 rfl 1 (by decide) (by decide) (by decide)
  obtain ⟨w, h1, h2, h3, _⟩ := h
  have hw : w = 1 := by
    have : ((cfgSmall.numWorkers : Nat) : Int) = 1 := rfl
    omega
  subst hw
  exact ⟨hr, rfl, h3⟩

/-- C2, as stated, fails at numWorkers = 4 and numTasks = 20: the full run exists, and every
full run leaves 18 lines in the sink, not 17. -/
theorem default_run_writes_18_lines :
    (∃ s, Reachable cfgDefault s ∧ s.main = MainPC.done) ∧
    ∀ s, Reachable cfgDefault s → s.main = MainPC.done →
      (fileLines s.sink).length = 18 ∧ (fileLines s.sink).length ≠ 17 := by
  constructor
  · obtain ⟨bs, s', hrun, _, hdone, _⟩ := exists_run_to_end (reachable_init cfgDefault)
    exact ⟨s', ⟨bs, hrun⟩, hdone rfl⟩
  · intro s hr hd
    have h := (done_lines (show 1 ≤ cfgDefault.numWorkers by decide) hr hd).2
    rw [← fileLines_done (fun _ => rfl) (by decide) hr hd] at h
    have e : cfgDefault.numTasks - cfgDefault.numTasks / 7 = 18 := by decide
    rw [e] at h
    exact ⟨h, by rw [h]; decide⟩

/-- C2, amended. For every numWorkers >= 1 and numTasks >= 0, with a sink whose writes
succeed, the number of lines in the sink after a full run is numTasks - floor(numTasks/7),
whatever the schedule; numWorkers = 4 and numTasks = 20 gives 18 lines. -/
theorem sink_line_count (cfg : Config) (hN : 1 ≤ cfg.numWorkers)
    (hw : ∀ k, cfg.writeOK k = true) (s : State) (hr : Reachable cfg s)
    (hd : s.main = MainPC.done) :
    (fileLines s.sink).length = cfg.numTasks - cfg.numTasks / 7 ∧
    (cfg.numWorkers = 4 → cfg.numTasks = 20 → (fileLines s.sink).length = 18) := by
  have h := (done_lines hN hr hd).2
  rw [← fileLines_done hw hN hr hd] at h
  refine ⟨h, fun _ h20 => ?_⟩
  rw [h, h20]

/-- C2 amended, on the complete run of one worker and one task: one line. -/
theorem sink_line_count_witness :
    Reachable cfgSmall smallFinal ∧ smallFinal.main = MainPC.done ∧
      (fileLines smallFinal.sink).length = 1 - 1 / 7 :=
  ⟨⟨smallSchedule, rfl⟩, rfl,
    (sink_line_count cfgSmall (by decide) (fun _ => rfl) smallFinal ⟨smallSchedule, rfl⟩ rfl).1⟩

/-- C3. In every reachable state the result channel is closed only if all numWorkers workers
have been spawned and have exited; hence no worker is blocked on a send while the channel is
closed, no step ends in the panic of a send on a closed channel (nor in any other panic),
and the history of the result channel has at most one close, which comes last. -/
theorem results_closed_only_after_all_workers_exited (cfg : Config) (s : State)
    (hr : Reachable cfg s) :
    (s.results.closed = true →
      s.workers.length = cfg.numWorkers ∧ ∀ w ∈ s.workers, w.pc = WorkerPC.exited) ∧
    (∀ w ∈ s.workers, ∀ (t : Task) (l : String),
      w.pc = WorkerPC.sending t l → s.results.closed = false) ∧
    s.panicked = false ∧
    (∀ (a : Action) (s' : State), step cfg a s = some s' → s'.panicked = false) ∧
    s.results.trace.count ChanEv.close ≤ 1 ∧
    s.results.trace = (xfers s.results.trace).map (fun p => ChanEv.xfer p.1 p.2) ++
      (if s.results.closed then [ChanEv.close] else []) := by
  obtain ⟨hc, hd⟩ := reachable_inv hr
  have hall : s.results.closed = true →
      s.workers.length = cfg.numWorkers ∧ ∀ w ∈ s.workers, w.pc = WorkerPC.exited := by
    intro hcl
    have hph := hc.resClosed.1 hcl
    have hwg := hc.joined (by omega)
    have hex := all_exited_of_liveCount s.workers (by rw [← hc.wgLive]; exact hwg)
    have hsp := hc.spawned
    refine ⟨?_, hex⟩
    cases hm : s.main <;> simp [hm, MainPC.phase] at hph <;> simpa [hm, spawnedOK] using hsp
  refine ⟨hall, ?_, hc.noPanic, ?_, ?_, hd.resultsWF⟩
  · intro w hw t l hpc
    cases hcl : s.results.closed with
    | false => rfl
    | true =>
      have := (hall hcl).2 w hw
      rw [hpc] at this
      cases this
  · intro a s' hs
    exact (reachable_ctl (reachable_run hr (show run cfg [a] s = some s' by simp [run, hs]))).noPanic
  · rw [count_close_le_one hd.resultsWF]
    split <;> omega

/-- C3, on the complete run of one worker and one task: the result channel is closed and the
worker has exited. -/
theorem results_closed_only_after_all_workers_exited_witness :
    Reachable cfgSmall smallFinal ∧ smallFinal.results.closed = true ∧
      smallFinal.workers.length = 1 ∧ ∀ w ∈ smallFinal.workers, w.pc = WorkerPC.exited :=
  ⟨⟨smallSchedule, rfl⟩, rfl,
    (results_closed_only_after_all_workers_exited cfgSmall smallFinal ⟨smallSchedule, rfl⟩).1 rfl⟩


theorem sink_empty_of_no_lines {cfg : Config} {s : State} (hr : Reachable cfg s)
    (h : received s.results.trace = []) : s.sink = "" ∧ fileLines s.sink = [] := by
  obtain ⟨_, hd⟩ := reachable_inv hr
  have hw : writtenOf s.collector (received s.results.trace) = [] := by
    rw [h]
    cases s.collector <;> rfl
  have hs : s.sink = "" := by rw [hd.sinkOK, hw]; rfl
  exact ⟨hs, by rw [hs]; rfl⟩

/-- C4. For every numWorkers >= 1 and numTasks >= 0 (0 included), with a sink that can be
created: every execution is finite (at most 3 numWorkers + 5 numTasks + 14 steps), never
panics and never aborts; a state in which main has not returned always has an enabled step
(no deadlock) and can be run on until main returns; when main has returned, producer,
collector and all workers have ended and the file, open since its creation, is closed; and
with numTasks = 0 the sink is empty. -/
theorem pipeline_terminates (cfg : Config) (hN : 1 ≤ cfg.numWorkers)
    (hc : cfg.createOK = true) (as : List Action) (s : State)
    (hr : run cfg as init = some s) :
    as.length ≤ 3 * cfg.numWorkers + 5 * cfg.numTasks + 14 ∧
    s.panicked = false ∧ s.main ≠ MainPC.aborted ∧
    (s.main ≠ MainPC.done → ∃ a s', step cfg a s = some s') ∧
    (∃ bs s', run cfg bs s = some s' ∧ s'.main = MainPC.done) ∧
    (s.main = MainPC.done →
      s.producer = ProducerPC.finished ∧ s.collector = CollectorPC.finished ∧
      (∀ w ∈ s.workers, w.pc = WorkerPC.exited) ∧ s.workers.length = cfg.numWorkers ∧
      s.file = FileState.closed) ∧
    (s.main = MainPC.waitWorkers → s.file = FileState.opened) ∧
    (s.file = FileState.closed → s.main = MainPC.done) ∧
    (cfg.numTasks = 0 → s.sink = "" ∧ fileLines s.sink = []) := by
  have hre : Reachable cfg s := ⟨as, hr⟩
  have hctl := reachable_ctl hre
  have hlen := run_length_le as init s hr
  rw [workLeft_init] at hlen
  refine ⟨by omega, hctl.noPanic, ?_, ?_, ?_, ?_, ?_, ?_, ?_⟩
  · intro ha
    have := hctl.abort ha
    rw [hc] at this
    exact absurd this (by decide)
  · intro hnd
    exact isSome_step hctl (not_halted_of_not_done hctl hc hnd)
  · obtain ⟨bs, s', hrun, _, hdone, _⟩ := exists_run_to_end hre
    exact ⟨bs, s', hrun, hdone hc⟩
  · intro hd
    obtain ⟨_, h2, h3, h4, h5, _, _, h8, _⟩ := done_facts hN hre hd
    exact ⟨h3, h2, h4, h5, h8⟩
  · intro hm
    rw [hctl.fileSt]
    simp [hm, MainPC.phase, fileAt]
  · intro hf
    have := hctl.fileSt
    rw [hf] at this
    cases hm : s.main <;> simp [hm, MainPC.phase, fileAt] at this
    rfl
  · intro h0
    apply sink_empty_of_no_lines hre
    obtain ⟨_, hform, _⟩ := received_facts hre
    cases hL : received s.results.trace with
    | nil => rfl
    | cons l L =>
      obtain ⟨w, i, _, _, h1, h2, _⟩ := hform l (by rw [hL]; exact List.mem_cons_self _ _)
      omega

/-- C4, on the complete run of one worker and one task. -/
theorem pipeline_terminates_witness :
    1 ≤ cfgSmall.numWorkers ∧ cfgSmall.createOK = true ∧
      run cfgSmall smallSchedule init = some smallFinal ∧
      smallFinal.main = MainPC.done ∧ smallFinal.file = FileState.closed ∧
      smallFinal.collector = CollectorPC.finished :=
  have h := (pipeline_terminates cfgSmall (by decide) rfl smallSchedule smallFinal rfl).2.2.2.2.2.1
    rfl
  ⟨by decide, rfl, rfl, rfl, h.2.2.2.2, h.2.1⟩

/-- C5, as stated, fails: with the program's four workers and a sink that cannot be created,
main reaches `log.Fatalf` after it has spawned all four workers. -/
theorem abort_happens_after_workers_spawned :
    (run cfgNoSink abortSchedule init).map (fun s => (s.main, s.workers.length))
      = some (MainPC.aborted, 4) := by
  rfl

/-- C5, amended. When the sink cannot be created, main aborts the run after the numWorkers
workers have been spawned and before the collector and the producer are started: in every
state of such a run the producer and the collector are not started, no task has been
enqueued, no result has been produced, the file does not exist, and the spawned workers have
at most logged their start and wait for a task; main never returns normally, the run can
always be continued up to the abort, and at the abort all numWorkers workers are spawned. -/
theorem failed_create_aborts_before_any_task (cfg : Config) (hc : cfg.createOK = false)
    (s : State) (hr : Reachable cfg s) :
    s.producer = ProducerPC.unspawned ∧ s.collector = CollectorPC.unspawned ∧
    s.tasks.trace = [] ∧ s.results.trace = [] ∧ s.sink = "" ∧
    s.file = FileState.notCreated ∧
    (∀ w ∈ s.workers, w.pc = WorkerPC.started ∨ w.pc = WorkerPC.recv) ∧
    s.main ≠ MainPC.done ∧
    (s.main = MainPC.aborted → s.workers.length = cfg.numWorkers) ∧
    (∃ bs s', run cfg bs s = some s' ∧ s'.main = MainPC.aborted) := by
  obtain ⟨hctl, hd⟩ := reachable_inv hr
  have hph : s.main.phase ≤ 2 := by
    by_contra hgt
    have := hctl.created (by omega)
    rw [hc] at this
    exact absurd this (by decide)
  have hprod : s.producer = ProducerPC.unspawned := hctl.prodSpawn.2 (by omega)
  have hcoll : s.collector = CollectorPC.unspawned := hctl.collSpawn.2 (by omega)
  have hres : s.results.trace = [] := hd.fresh hcoll
  have hclosed : s.tasks.closed = false := by
    cases hcl : s.tasks.closed with
    | false => rfl
    | true =>
      have := hctl.taskClosed.1 hcl
      rw [hprod] at this
      cases this
  have htasks : s.tasks.trace = [] := by
    have h1 := hd.sentTasks
    rw [hprod] at h1
    simp only [ProducerPC.sentCount, List.range'_zero, List.map_nil, List.map_eq_nil_iff] at h1
    have h2 := hd.tasksWF
    unfold Chan.wellFormed at h2
    rw [h1, hclosed] at h2
    simpa using h2
  refine ⟨hprod, hcoll, htasks, hres, ?_, ?_, hctl.idle hprod, ?_, ?_, ?_⟩
  · exact (sink_empty_of_no_lines hr (by rw [hres]; rfl)).1
  · rw [hctl.fileSt]
    simp [fileAt, hph]
  · intro hm
    rw [hm] at hph
    simp [MainPC.phase] at hph
  · intro hm
    have := hctl.spawned
    simpa [hm, spawnedOK] using this
  · obtain ⟨bs, s', hrun, _, _, hab⟩ := exists_run_to_end hr
    exact ⟨bs, s', hrun, hab hc⟩

/-- C5 amended, on the default configuration with a sink that cannot be created: at the
abort four workers are spawned and no task has been enqueued. -/
theorem failed_create_aborts_before_any_task_witness :
    cfgNoSink.createOK = false ∧ Reachable cfgNoSink abortedState ∧
      abortedState.main = MainPC.aborted ∧ abortedState.workers.length = 4 ∧
      abortedState.tasks.trace = [] :=
  have h := failed_create_aborts_before_any_task cfgNoSink rfl abortedState ⟨abortSchedule, rfl⟩
  ⟨rfl, ⟨abortSchedule, rfl⟩, rfl, h.2.2.2.2.2.2.2.2.1 rfl, h.2.2.1⟩


theorem resultLine_processTask (U : Char → Char) (w : Int) (t : Task) :
    resultLine w ("Task " ++ fmtInt t.ID ++ " processed => " ++ ToUpper U t.Payload) =
      "Worker " ++ fmtInt w ++ ": Task " ++ fmtInt t.ID ++ " processed => " ++
        ToUpper U t.Payload := by
  apply String.ext
  simp [resultLine, String.data_append, List.append_assoc]

/-- C6, amended. For every worker id w and every task with id t not divisible by 7 and
payload p, the processing step of the worker leaves it blocked on the send of
"Worker <w>: Task <t> processed => <UPPERCASE(p)>" (w and t in decimal), and the hand-over
to the collector puts exactly this line on the result channel. -/
theorem worker_enqueues_line (cfg : Config) (s : State) (k : Nat) (w : Int) (t : Task)
    (hk : s.workers[k]? = some { id := w, pc := WorkerPC.picked t })
    (hh : s.halted = false) (h7 : ¬ (7 : Int) ∣ t.ID) :
    ∃ s1, step cfg (Action.worker k) s = some s1 ∧
      s1.workers[k]? = some (Worker.mk w (WorkerPC.sending t
        ("Worker " ++ fmtInt w ++ ": Task " ++ fmtInt t.ID ++ " processed => " ++
          ToUpper cfg.unicodeUpper t.Payload))) ∧
      ∀ s2 s3 : State, s2.workers[k]? = s1.workers[k]? →
        step cfg (Action.sendResult k) s2 = some s3 →
        s3.results.trace = s2.results.trace ++ [ChanEv.xfer w
          ("Worker " ++ fmtInt w ++ ": Task " ++ fmtInt t.ID ++ " processed => " ++
            ToUpper cfg.unicodeUpper t.Payload)] ∧
        s3.collector = CollectorPC.writing
          ("Worker " ++ fmtInt w ++ ": Task " ++ fmtInt t.ID ++ " processed => " ++
            ToUpper cfg.unicodeUpper t.Payload) := by
  have hp : processTask cfg.unicodeUpper t =
      ("Task " ++ fmtInt t.ID ++ " processed => " ++ ToUpper cfg.unicodeUpper t.Payload,
        none) := by
    unfold processTask
    rw [if_neg (fun h => h7 ((tmod_seven _).1 h))]
  have hlt : k < s.workers.length := by
    by_contra hge
    rw [List.getElem?_eq_none (by omega)] at hk
    cases hk
  have hstep : step cfg (Action.worker k) s = some
      { setPC s k (Worker.mk w (WorkerPC.picked t)) (WorkerPC.sending t (resultLine w
          ("Task " ++ fmtInt t.ID ++ " processed => " ++ ToUpper cfg.unicodeUpper t.Payload)))
        with log := s.log ++ [LogMsg.workerPicked w t.ID] } := by
    simp only [step, hh, Bool.false_eq_true, if_false, workerStep, hk, hp]
  refine ⟨_, hstep, ?_, ?_⟩
  · simp only [setPC, List.getElem?_set_self hlt, resultLine_processTask]
  · intro s2 s3 h2 h3
    simp only [setPC, List.getElem?_set_self hlt, resultLine_processTask] at h2
    unfold step at h3
    split at h3
    · cases h3
    · simp only [sendResult, h2] at h3
      split at h3
      · rename_i w' hc hw'
        simp only [Option.some.injEq] at hw'
        subst hw'
        simp only at h3
        split at h3
        · simp only [Option.some.injEq] at h3
          subst h3
          exact ⟨rfl, rfl⟩
        · cases h3
      · cases h3

/-- C6 amended, on the default configuration, worker 1 having just taken task 1. -/
theorem worker_enqueues_line_witness :
    pickedState.workers[0]? = some { id := 1, pc := WorkerPC.picked (mkTask 1) } ∧
    pickedState.halted = false ∧ ¬ (7 : Int) ∣ (mkTask 1).ID ∧
    ∃ s1, step cfgDefault (Action.worker 0) pickedState = some s1 ∧
      s1.workers[0]? = some (Worker.mk 1 (WorkerPC.sending (mkTask 1)
        ("Worker " ++ fmtInt 1 ++ ": Task " ++ fmtInt (mkTask 1).ID ++ " processed => " ++
          ToUpper cfgDefault.unicodeUpper (mkTask 1).Payload))) := by
  have h7 : ¬ (7 : Int) ∣ (mkTask 1).ID := by decide
  obtain ⟨s1, h1, h2, _⟩ :=
    worker_enqueues_line cfgDefault pickedState 0 1 (mkTask 1) rfl rfl h7
  exact ⟨rfl, rfl, h7, s1, h1, h2⟩

/-- C7, as stated, fails when a write fails part-way: one worker, one task, a sink whose
write fails after 20 characters. After the full run the collector has received the line
"Worker 1: Task 1 processed => PAYLOAD-1", and the sink holds "Worker 1: Task 1 pro": its
one line has not the stated form and is not followed by a newline, and the sink is not
the concatenation of the received lines. -/
theorem failed_write_leaves_fragment :
    (run cfgFailingWrites smallSchedule init).map
        (fun s => (s.main, received s.results.trace, s.sink, fileLines s.sink))
      = some (MainPC.done, ["Worker 1: Task 1 processed => PAYLOAD-1"],
          "Worker 1: Task 1 pro", ["Worker 1: Task 1 pro"]) := by
  rfl

/-- C7, amended. With a sink whose writes succeed, in every reachable state the content of
the sink is the concatenation, in the order in which the collector received them, of the
received lines (all of them once the collector has ended, all but the one it still holds
before), each followed by a newline; and every line of the sink, like every line the
collector has received, is "Worker <w>: Task <i> processed => <UPPERCASE(payload)>" for a
worker w in 1..numWorkers and a task i in 1..numTasks that this worker w took from the task
channel, the payload being that of task i, so that the line ends in "PAYLOAD-<i>". -/
theorem sink_lines_format (cfg : Config) (hw : ∀ k, cfg.writeOK k = true) (s : State)
    (hr : Reachable cfg s) :
    s.sink = concatLines (writtenOf s.collector (received s.results.trace)) ∧
    fileLines s.sink = writtenOf s.collector (received s.results.trace) ∧
    (s.collector = CollectorPC.finished → s.sink = concatLines (received s.results.trace)) ∧
    (∀ l, l ∈ fileLines s.sink ∨ l ∈ received s.results.trace → ∃ (w : Int) (i : Nat),
      1 ≤ w ∧ w ≤ (cfg.numWorkers : Int) ∧ 1 ≤ i ∧ i ≤ cfg.numTasks ∧
      ChanEv.xfer w (mkTask i) ∈ s.tasks.trace ∧
      l = "Worker " ++ fmtInt w ++ ": Task " ++ fmtInt (mkTask i).ID ++ " processed => " ++
        ToUpper cfg.unicodeUpper (mkTask i).Payload ∧
      l = "Worker " ++ fmtInt w ++ ": Task " ++ fmtInt (i : Int) ++ " processed => PAYLOAD-" ++
        fmtInt (i : Int)) := by
  obtain ⟨hs, hl, hsub⟩ := sink_facts hw hr
  obtain ⟨_, hform, _⟩ := received_facts hr
  refine ⟨hs, hl, ?_, ?_⟩
  · intro hf
    rw [hs, hf]
    rfl
  · intro l hl'
    have hin : l ∈ received s.results.trace := by
      rcases hl' with h | h
      · exact hsub.subset h
      · exact h
    obtain ⟨w, i, h1, h2, h3, h4, h7, h5, h6⟩ := hform l hin
    refine ⟨w, i, h1, h2, h3, h4, h5, ?_, by rw [h6]; rfl⟩
    have hp : processTask cfg.unicodeUpper (mkTask i) =
        ("Task " ++ fmtInt (mkTask i).ID ++ " processed => " ++
          ToUpper cfg.unicodeUpper (mkTask i).Payload, none) := by
      unfold processTask
      exact if_neg (fun h => h7 ((tmod_seven_nat i).1 h))
    rw [h6, ← resultLine_mkTask cfg.unicodeUpper w i h7, ← resultLine_processTask, hp]

/-- C7 amended, on the complete run of one worker and one task. -/
theorem sink_lines_format_witness :
    (∀ k, cfgSmall.writeOK k = true) ∧ Reachable cfgSmall smallFinal ∧
      fileLines smallFinal.sink =
        writtenOf smallFinal.collector (received smallFinal.results.trace) ∧
      smallFinal.sink = "Worker 1: Task 1 processed => PAYLOAD-1\n" :=
  ⟨fun _ => rfl, ⟨smallSchedule, rfl⟩,
    (sink_lines_format cfgSmall (fun _ => rfl) smallFinal ⟨smallSchedule, rfl⟩).2.1, rfl⟩

/-- C9. With a sink that can be created and whose every write fails, for every
numWorkers >= 1 and numTasks >= 0: no line is ever persisted (the sink holds no newline,
hence no complete line; it holds the characters that the failed writes let through, and
nothing at all when they let nothing through) and every write attempt is logged as one
write error; a failed write sends the collector back to receiving; no state panics, every
state in which main has not returned has an enabled step, can take only boundedly many
further steps, and can be run on until main returns; and when main has returned, the
collector has ended after consuming one result for each task id in 1..numTasks not
divisible by 7, that is numTasks - numTasks/7 results, with one write attempt and one
logged write error for each, and the file is closed. -/
theorem failing_sink_clean_shutdown (cfg : Config) (hN : 1 ≤ cfg.numWorkers)
    (hc : cfg.createOK = true) (hw : ∀ k, cfg.writeOK k = false) (s : State)
    (hr : Reachable cfg s) :
    s.panicked = false ∧ '\n' ∉ s.sink.data ∧ completeLines s.sink = [] ∧
    s.sink = persisted cfg.writeOK cfg.partialWrite
      (writtenOf s.collector (received s.results.trace)) ∧
    ((∀ k, cfg.partialWrite k = 0) → s.sink = "") ∧
    s.log.count LogMsg.writeError = s.writes ∧
    (∀ l, s.collector = CollectorPC.writing l →
      ∃ s', step cfg Action.collector s = some s' ∧ s'.collector = CollectorPC.recv ∧
        s'.log = s.log ++ [LogMsg.writeError] ∧
        s'.sink = s.sink ++ String.mk (l.data.take (cfg.partialWrite s.writes))) ∧
    (s.main ≠ MainPC.done → ∃ a s', step cfg a s = some s') ∧
    (∀ bs s', run cfg bs s = some s' → bs.length ≤ 3 * cfg.numWorkers + 5 * cfg.numTasks + 14) ∧
    (∃ bs s', run cfg bs s = some s' ∧ s'.main = MainPC.done) ∧
    (s.main = MainPC.done →
      s.collector = CollectorPC.finished ∧ s.file = FileState.closed ∧
      (∀ i, 1 ≤ i → i ≤ cfg.numTasks → i % 7 ≠ 0 →
        ∃ w : Int, 1 ≤ w ∧ w ≤ (cfg.numWorkers : Int) ∧
          outputLine w i ∈ received s.results.trace) ∧
      (received s.results.trace).length = cfg.numTasks - cfg.numTasks / 7 ∧
      s.writes = cfg.numTasks - cfg.numTasks / 7 ∧
      s.log.count LogMsg.writeError = cfg.numTasks - cfg.numTasks / 7) := by
  obtain ⟨hctl, hd⟩ := reachable_inv hr
  obtain ⟨_, hform, _⟩ := received_facts hr
  have hnl : '\n' ∉ s.sink.data := by
    rw [hd.sinkOK]
    apply persisted_no_newline _ _ hw
    intro l hl
    obtain ⟨w, i, _, _, _, _, _, _, he⟩ :=
      hform l ((writtenOf_sublist s.collector (received s.results.trace)).subset hl)
    rw [he]
    exact outputLine_no_newline w i
  have hlog : s.log.count LogMsg.writeError = s.writes := by
    rw [hd.errLog, failures_all _ hw]
  refine ⟨hctl.noPanic, hnl, completeLinesFrom_no_newline _ _ hnl, hd.sinkOK, ?_, hlog,
    ?_, ?_, ?_, ?_, ?_⟩
  · intro hp
    rw [hd.sinkOK, persisted_nothing _ _ hw hp]
  · intro l hcl
    have hnd : s.main ≠ MainPC.done := by
      intro hm
      have := hctl.collDone (by simp [hm, MainPC.phase])
      rw [hcl] at this
      cases this
    have hh := not_halted_of_not_done hctl hc hnd
    have hfile : s.file = FileState.opened := by
      have h5 := hctl.collSpawn
      have h9 := hctl.collDone
      have h14 := hctl.fileSt
      simp only [hcl, reduceCtorEq, false_iff, imp_false] at h5 h9
      rw [h14]
      unfold fileAt
      rw [if_neg (by omega), if_pos (by omega)]
    have hstep : step cfg Action.collector s = some
        { s with sink := s.sink ++ failedWrite s.file (cfg.partialWrite s.writes) l,
                 log := s.log ++ [LogMsg.writeError], writes := s.writes + 1,
                 collector := CollectorPC.recv } := by
      simp only [step, hh, Bool.false_eq_true, if_false, collectorStep, hcl, hw, and_false]
    refine ⟨_, hstep, rfl, rfl, ?_⟩
    simp only [failedWrite, hfile, if_true]
  · intro hnd
    exact isSome_step hctl (not_halted_of_not_done hctl hc hnd)
  · intro bs s' hbs
    obtain ⟨as, has⟩ := hr
    have h1 := run_length_le as init s has
    have h2 := run_length_le bs s s' hbs
    rw [workLeft_init] at h1
    omega
  · obtain ⟨bs, s', hrun, _, hdone, _⟩ := exists_run_to_end hr
    exact ⟨bs, s', hrun, hdone hc⟩
  · intro hdone
    obtain ⟨_, h2, _, _, _, _, _, h8, _, _, _, h12, _, _⟩ := done_facts hN hr hdone
    obtain ⟨hex, hlen⟩ := done_lines hN hr hdone
    exact ⟨h2, h8, hex, hlen, by rw [h12, hlen], by rw [hlog, h12, hlen]⟩

/-- C9, on the complete run of one worker and one task with writes that fail after 20
characters: one result consumed, one write error logged, no complete line in the sink,
which holds the fragment of the failed write. -/
theorem failing_sink_clean_shutdown_witness :
    1 ≤ cfgFailingWrites.numWorkers ∧ cfgFailingWrites.createOK = true ∧
      (∀ k, cfgFailingWrites.writeOK k = false) ∧ Reachable cfgFailingWrites failingFinal ∧
      failingFinal.main = MainPC.done ∧ completeLines failingFinal.sink = [] ∧
      failingFinal.sink = "Worker 1: Task 1 pro" ∧
      failingFinal.log.count LogMsg.writeError = 1 - 1 / 7 :=
  have h := failing_sink_clean_shutdown cfgFailingWrites (by decide) rfl (fun _ => rfl)
    failingFinal ⟨smallSchedule, rfl⟩
  ⟨by decide, rfl, fun _ => rfl, ⟨smallSchedule, rfl⟩, rfl, h.2.2.1, rfl,
    (h.2.2.2.2.2.2.2.2.2.2 rfl).2.2.2.2.2⟩

/-- C10. For every numTasks >= 0, in every reachable state the hand-overs on the task
channel are the tasks with IDs 1, 2, ..., m in this order for some m <= numTasks, the task
with ID i carrying the payload "payload-<i>" (payloads are pairwise distinct); the history of
the channel has its hand-overs first and then one close exactly when the channel is closed,
so nothing is enqueued after the close and the channel is closed at most once; the channel
is closed only after all numTasks tasks have been handed over; and after a full run of a
pool of at least one worker the tasks 1..numTasks have all been enqueued and the channel has
been closed once. -/
theorem producer_sends_tasks_in_order (cfg : Config) (s : State) (hr : Reachable cfg s) :
    (∃ m, m ≤ cfg.numTasks ∧
      (xfers s.tasks.trace).map Prod.snd = (List.range' 1 m).map mkTask ∧
      (s.tasks.closed = true → m = cfg.numTasks)) ∧
    s.tasks.trace = (xfers s.tasks.trace).map (fun p => ChanEv.xfer p.1 p.2) ++
      (if s.tasks.closed then [ChanEv.close] else []) ∧
    s.tasks.trace.count ChanEv.close = (if s.tasks.closed then 1 else 0) ∧
    s.panicked = false ∧
    (∀ i : Nat, (mkTask i).ID = (i : Int) ∧ (mkTask i).Payload = "payload-" ++ fmtInt (i : Int)) ∧
    (∀ i j : Nat, (mkTask i).Payload = (mkTask j).Payload → i = j) ∧
    (1 ≤ cfg.numWorkers → s.main = MainPC.done →
      s.tasks.closed = true ∧ s.producer = ProducerPC.finished ∧
      (xfers s.tasks.trace).map Prod.snd = (List.range' 1 cfg.numTasks).map mkTask ∧
      s.tasks.trace.count ChanEv.close = 1) := by
  obtain ⟨hctl, hd⟩ := reachable_inv hr
  have hcount := count_close_le_one hd.tasksWF
  refine ⟨⟨s.producer.sentCount cfg.numTasks, sentCount_le hctl, hd.sentTasks, ?_⟩,
    hd.tasksWF, hcount, hctl.noPanic, fun i => ⟨rfl, rfl⟩, fun i j => payload_injective, ?_⟩
  · intro hcl
    rw [hctl.taskClosed.1 hcl]
    rfl
  · intro hN hdone
    obtain ⟨_, _, h3, _, _, h6, _, _, _, h10, _⟩ := done_facts hN hr hdone
    refine ⟨h6, h3, h10, ?_⟩
    rw [hcount, h6]
    rfl

/-- C10, on the complete run of one worker and one task: the history of the task channel is
the hand-over of task 1 (payload "payload-1") to worker 1, then the close. -/
theorem producer_sends_tasks_in_order_witness :
    Reachable cfgSmall smallFinal ∧
      smallFinal.tasks.trace.count ChanEv.close = 1 ∧
      smallFinal.tasks.trace
        = [ChanEv.xfer 1 { ID := 1, Payload := "payload-1" }, ChanEv.close] :=
  ⟨⟨smallSchedule, rfl⟩,
    ((producer_sends_tasks_in_order cfgSmall smallFinal ⟨smallSchedule, rfl⟩).2.2.2.2.2.2
      (by decide) rfl).2.2.2,
    rfl⟩

end Pipeline
